import Mathlib

/-!
Background-connection device list of the GATT stack.

A shallow embedding of `stack/gatt/gatt_utils_white_list.cc`.

* `gatt_cb.bgconn_dev`, a `std::list<tGATT_BG_CONN_DEV>`, is a `List`; every
  operation takes the list and returns the list it leaves behind.
* A `tGATT_BG_CONN_DEV*` and a `std::list` iterator are positions in that list;
  `list.end()` is the position equal to the length of the list.
* `std::unordered_set<tGATT_IF>` is a `Finset`.
* The controller interface (`BTM_WhiteListAdd`, `BTM_WhiteListRemove`,
  `BTM_WhiteListClear`) lives outside the file.  Every operation returns the
  calls it issued, in order; the answer of `BTM_WhiteListAdd` is a parameter.
-/

namespace GattWhiteList

/-- Device address (`RawAddress`, six octets); only equality is used. -/
abbrev RawAddress := Nat

/-- Application interface identifier (`tGATT_IF`). -/
abbrev tGATT_IF := Nat

/-- The record `tGATT_BG_CONN_DEV`: the interested applications and the device
address. -/
structure tGATT_BG_CONN_DEV where
  gatt_if : Finset tGATT_IF
  remote_bda : RawAddress

instance : DecidableEq tGATT_BG_CONN_DEV := fun a b =>
  decidable_of_iff (a.gatt_if = b.gatt_if ∧ a.remote_bda = b.remote_bda)
    (by cases a; cases b; simp)

/-- The part of `tGATT_REG` the file reads: the interface identifier. -/
structure tGATT_REG where
  gatt_if : tGATT_IF
deriving DecidableEq

/-- One call made to the controller interface.  `WhiteListAdd a ok` is a call
`BTM_WhiteListAdd(a)` that answered `ok`. -/
inductive BtmCall where
  | WhiteListAdd (bd_addr : RawAddress) (ok : Bool)
  | WhiteListRemove (bd_addr : RawAddress)
  | WhiteListClear
deriving DecidableEq

/-- What an operation leaves behind: its return value, the device list and the
controller calls it made, oldest first. -/
structure Outcome (ρ : Type) where
  ret : ρ
  bgconn_dev : List tGATT_BG_CONN_DEV
  calls : List BtmCall

instance {ρ : Type} [DecidableEq ρ] : DecidableEq (Outcome ρ) := fun a b =>
  decidable_of_iff (a.ret = b.ret ∧ a.bgconn_dev = b.bgconn_dev ∧ a.calls = b.calls)
    (by cases a; cases b; simp)

/-- The call `std::unordered_set::count`: 1 when the key is present, else 0. -/
def unordered_set_count (s : Finset tGATT_IF) (x : tGATT_IF) : Nat :=
  if x ∈ s then 1 else 0

/-- The call `std::unordered_set::insert`: the set afterwards and whether the
key was newly inserted (the `.second` of the returned pair). -/
def unordered_set_insert (s : Finset tGATT_IF) (x : tGATT_IF) : Finset tGATT_IF × Bool :=
  (insert x s, decide (x ∉ s))

/-- The call `std::unordered_set::erase(key)`: the set afterwards and the number
of elements erased. -/
def unordered_set_erase (s : Finset tGATT_IF) (x : tGATT_IF) : Finset tGATT_IF × Nat :=
  (s.erase x, if x ∈ s then 1 else 0)

/-- Source `gatt_is_bg_dev_for_app`: is the application one of those interested
in the record. -/
def gatt_is_bg_dev_for_app (p_dev : tGATT_BG_CONN_DEV) (gatt_if : tGATT_IF) : Bool :=
  decide (unordered_set_count p_dev.gatt_if gatt_if ≠ 0)

/-- Source `gatt_find_bg_dev`: position of the first record with the address,
`none` for `nullptr`. -/
def gatt_find_bg_dev (remote_bda : RawAddress) : List tGATT_BG_CONN_DEV → Option Nat
  | [] => none
  | dev :: rest =>
    if dev.remote_bda = remote_bda then some 0
    else (gatt_find_bg_dev remote_bda rest).map (· + 1)

/-- Source `gatt_find_bg_dev_it`: iterator to the first record with the address,
`list.end()` (the length) when there is none. -/
def gatt_find_bg_dev_it (remote_bda : RawAddress) : List tGATT_BG_CONN_DEV → Nat
  | [] => 0
  | it :: rest =>
    if it.remote_bda = remote_bda then 0
    else gatt_find_bg_dev_it remote_bda rest + 1

/-- Source `gatt_add_bg_dev_list`.  `BTM_WhiteListAdd` is the answer the
controller interface gives for an address.  The `LOG(ERROR)` line written when
the application was already in the set is a diagnostic, not state, and is not
recorded. -/
def gatt_add_bg_dev_list (BTM_WhiteListAdd : RawAddress → Bool)
    (bgconn_dev : List tGATT_BG_CONN_DEV) (p_reg : tGATT_REG) (bd_addr : RawAddress) :
    Outcome Bool :=
  let gatt_if := p_reg.gatt_if
  match gatt_find_bg_dev bd_addr bgconn_dev with
  | some p_dev =>
    -- device already in the whitelist, just add interested app to the list
    ⟨true,
     bgconn_dev.modify
       (fun dev => { dev with gatt_if := (unordered_set_insert dev.gatt_if gatt_if).1 }) p_dev,
     []⟩
  | none =>
    -- the device is not in the whitelist
    if !BTM_WhiteListAdd bd_addr then
      ⟨false, bgconn_dev, [BtmCall.WhiteListAdd bd_addr false]⟩
    else
      let dev : tGATT_BG_CONN_DEV := ⟨∅, 0⟩
      let dev := { dev with remote_bda := bd_addr }
      let dev := { dev with gatt_if := (unordered_set_insert dev.gatt_if gatt_if).1 }
      ⟨true, bgconn_dev ++ [dev], [BtmCall.WhiteListAdd bd_addr true]⟩

/-- Source `gatt_clear_bg_dev_for_addr`; its `uint8_t` result only ever holds
`true` or `false`. -/
def gatt_clear_bg_dev_for_addr (bgconn_dev : List tGATT_BG_CONN_DEV) (bd_addr : RawAddress) :
    Outcome Bool :=
  let dev_it := gatt_find_bg_dev_it bd_addr bgconn_dev
  match bgconn_dev[dev_it]? with
  | none => ⟨false, bgconn_dev, []⟩
  | some dev =>
    ⟨true, bgconn_dev.eraseIdx dev_it, [BtmCall.WhiteListRemove dev.remote_bda]⟩

/-- Source `gatt_remove_bg_dev_from_list`. -/
def gatt_remove_bg_dev_from_list (bgconn_dev : List tGATT_BG_CONN_DEV) (p_reg : tGATT_REG)
    (bd_addr : RawAddress) : Outcome Bool :=
  let gatt_if := p_reg.gatt_if
  let dev_it := gatt_find_bg_dev_it bd_addr bgconn_dev
  match bgconn_dev[dev_it]? with
  | none => ⟨false, bgconn_dev, []⟩
  | some dev =>
    let erased := unordered_set_erase dev.gatt_if gatt_if
    let dev := { dev with gatt_if := erased.1 }
    let bgconn_dev := bgconn_dev.set dev_it dev
    if erased.2 = 0 then ⟨false, bgconn_dev, []⟩
    else if dev.gatt_if ≠ ∅ then ⟨true, bgconn_dev, []⟩
    else
      -- no more apps interested - remove from whitelist and delete record
      ⟨true, bgconn_dev.eraseIdx dev_it, [BtmCall.WhiteListRemove dev.remote_bda]⟩

/-- The `while (it != end)` loop of `gatt_deregister_bgdev_list`, one iteration
per unit of fuel; `none` when the fuel runs out before the loop ends. -/
def gatt_deregister_bgdev_list_loop (gatt_if : tGATT_IF) :
    Nat → List tGATT_BG_CONN_DEV → Nat → List BtmCall → Option (Outcome Unit)
  | 0, _, _, _ => none
  | fuel + 1, bgconn_dev, it, calls =>
    match bgconn_dev[it]? with
    | none => some ⟨(), bgconn_dev, calls⟩
    | some dev =>
      let dev := { dev with gatt_if := (unordered_set_erase dev.gatt_if gatt_if).1 }
      let bgconn_dev := bgconn_dev.set it dev
      if dev.gatt_if.card ≠ 0 then
        gatt_deregister_bgdev_list_loop gatt_if fuel bgconn_dev (it + 1) calls
      else
        gatt_deregister_bgdev_list_loop gatt_if fuel (bgconn_dev.eraseIdx it) it
          (calls ++ [BtmCall.WhiteListRemove dev.remote_bda])

/-- Source `gatt_deregister_bgdev_list`: the loop started at `begin()`, with one
iteration allowed per record plus the final test. -/
def gatt_deregister_bgdev_list (bgconn_dev : List tGATT_BG_CONN_DEV) (gatt_if : tGATT_IF) :
    Option (Outcome Unit) :=
  gatt_deregister_bgdev_list_loop gatt_if (bgconn_dev.length + 1) bgconn_dev 0 []

/-- Source `gatt_reset_bgdev_list`. -/
def gatt_reset_bgdev_list (_bgconn_dev : List tGATT_BG_CONN_DEV) (after_reset : Bool) :
    Outcome Unit :=
  ⟨(), [], if !after_reset then [BtmCall.WhiteListClear] else []⟩

/-- The addresses of the records, in list order. -/
def addresses (bgconn_dev : List tGATT_BG_CONN_DEV) : List RawAddress :=
  bgconn_dev.map (·.remote_bda)

/-- The controller filter as a set of addresses: a `BTM_WhiteListAdd` that
answered true inserts, `BTM_WhiteListRemove` deletes, `BTM_WhiteListClear`
empties. -/
def applyCall (filter : Finset RawAddress) : BtmCall → Finset RawAddress
  | BtmCall.WhiteListAdd a ok => if ok then insert a filter else filter
  | BtmCall.WhiteListRemove a => filter.erase a
  | BtmCall.WhiteListClear => ∅

/-- The controller filter after a sequence of calls, oldest first. -/
def applyCalls (filter : Finset RawAddress) (calls : List BtmCall) : Finset RawAddress :=
  calls.foldl applyCall filter

/-- The spec's `IsInterested(address, app)`: `gatt_is_bg_dev_for_app` on the record
`gatt_find_bg_dev` returns, false when there is no record. -/
def IsInterested (bgconn_dev : List tGATT_BG_CONN_DEV) (address : RawAddress)
    (app : tGATT_IF) : Bool :=
  match gatt_find_bg_dev address bgconn_dev with
  | none => false
  | some p_dev =>
    match bgconn_dev[p_dev]? with
    | none => false
    | some dev => gatt_is_bg_dev_for_app dev app

/-- DeregisterApp in the spec's words, the records: the application is erased
from every interest set and the records whose set became empty are dropped. -/
def spec_DeregisterApp_records (bgconn_dev : List tGATT_BG_CONN_DEV) (app : tGATT_IF) :
    List tGATT_BG_CONN_DEV :=
  (bgconn_dev.map (fun d => (⟨d.gatt_if.erase app, d.remote_bda⟩ : tGATT_BG_CONN_DEV))).filter
    (fun d => decide (d.gatt_if ≠ ∅))

/-- DeregisterApp in the spec's words, the controller calls: one
`BTM_WhiteListRemove` for the address of each dropped record, in list order. -/
def spec_DeregisterApp_calls (bgconn_dev : List tGATT_BG_CONN_DEV) (app : tGATT_IF) :
    List BtmCall :=
  ((bgconn_dev.map (fun d => (⟨d.gatt_if.erase app, d.remote_bda⟩ : tGATT_BG_CONN_DEV))).filter
    (fun d => decide (d.gatt_if = ∅))).map (fun d => BtmCall.WhiteListRemove d.remote_bda)

/-- RemoveInterest called once for each address of a list, in order, ignoring the
boolean results; the controller calls are accumulated. -/
def removeEach (p_reg : tGATT_REG) :
    List RawAddress → List tGATT_BG_CONN_DEV → List BtmCall →
      List tGATT_BG_CONN_DEV × List BtmCall
  | [], bgconn_dev, calls => (bgconn_dev, calls)
  | a :: rest, bgconn_dev, calls =>
    removeEach p_reg rest (gatt_remove_bg_dev_from_list bgconn_dev p_reg a).bgconn_dev
      (calls ++ (gatt_remove_bg_dev_from_list bgconn_dev p_reg a).calls)

/-- One of the three interest calls: AddInterest (`gatt_add_bg_dev_list`, with the
answer `BTM_WhiteListAdd` gives should it be asked), RemoveInterest
(`gatt_remove_bg_dev_from_list`) and DeregisterApp (`gatt_deregister_bgdev_list`). -/
inductive InterestCall where
  | AddInterest (app : tGATT_IF) (address : RawAddress) (filterAdd : Bool)
  | RemoveInterest (app : tGATT_IF) (address : RawAddress)
  | DeregisterApp (app : tGATT_IF)
deriving DecidableEq

/-- One call of any of the five operations that write the list: an interest call,
`gatt_clear_bg_dev_for_addr` or `gatt_reset_bgdev_list`. -/
inductive Operation where
  | interest (call : InterestCall)
  | ClearAddress (address : RawAddress)
  | Reset (afterControllerReset : Bool)
deriving DecidableEq

/-- Run one interest call on the list.  DeregisterApp returns nothing; its result
is recorded as `true`. -/
def performInterest (bgconn_dev : List tGATT_BG_CONN_DEV) : InterestCall → Option (Outcome Bool)
  | InterestCall.AddInterest app address filterAdd =>
    some (gatt_add_bg_dev_list (fun _ => filterAdd) bgconn_dev ⟨app⟩ address)
  | InterestCall.RemoveInterest app address =>
    some (gatt_remove_bg_dev_from_list bgconn_dev ⟨app⟩ address)
  | InterestCall.DeregisterApp app =>
    (gatt_deregister_bgdev_list bgconn_dev app).map (fun o => ⟨true, o.bgconn_dev, o.calls⟩)

/-- Run one operation on the list.  Reset returns nothing; its result is recorded
as `true`. -/
def perform (bgconn_dev : List tGATT_BG_CONN_DEV) : Operation → Option (Outcome Bool)
  | Operation.interest call => performInterest bgconn_dev call
  | Operation.ClearAddress address => some (gatt_clear_bg_dev_for_addr bgconn_dev address)
  | Operation.Reset afterControllerReset =>
    some ⟨true, (gatt_reset_bgdev_list bgconn_dev afterControllerReset).bgconn_dev,
      (gatt_reset_bgdev_list bgconn_dev afterControllerReset).calls⟩

/-- The list left by a sequence of operations, oldest first, started on a given
list. -/
def applyOperations (ops : List Operation) (bgconn_dev : List tGATT_BG_CONN_DEV) :
    Option (List tGATT_BG_CONN_DEV) :=
  ops.foldl (fun s op => s.bind (fun l => (perform l op).map (fun o => o.bgconn_dev)))
    (some bgconn_dev)

/-- What a run of interest calls has produced so far: the list, the controller
calls made, and each interest call with the value it returned, oldest first. -/
structure Trace where
  bgconn_dev : List tGATT_BG_CONN_DEV
  calls : List BtmCall
  history : List (InterestCall × Bool)

/-- Extend a run by one interest call. -/
def stepInterest (t : Trace) (call : InterestCall) : Option Trace :=
  (performInterest t.bgconn_dev call).map
    (fun o => ⟨o.bgconn_dev, t.calls ++ o.calls, t.history ++ [(call, o.ret)]⟩)

/-- The run of a sequence of interest calls, oldest first, from the empty list. -/
def runInterest (reqs : List InterestCall) : Option Trace :=
  reqs.foldl (fun s call => s.bind (fun t => stepInterest t call)) (some ⟨[], [], []⟩)

/-- The effect of one returned interest call on the set of applications with an
outstanding registration for address `a`: a successful AddInterest for `a` adds the
application, a RemoveInterest for `a` or a DeregisterApp removes it. -/
def noteCall (a : RawAddress) (s : Finset tGATT_IF) : InterestCall × Bool → Finset tGATT_IF
  | (InterestCall.AddInterest app address _, ret) =>
    if address = a ∧ ret = true then insert app s else s
  | (InterestCall.RemoveInterest app address, _) =>
    if address = a then s.erase app else s
  | (InterestCall.DeregisterApp app, _) => s.erase app

/-- The applications that have made a successful AddInterest for `a` with no later
RemoveInterest for `a` or DeregisterApp, read off a history. -/
def outstanding (a : RawAddress) (history : List (InterestCall × Bool)) : Finset tGATT_IF :=
  history.foldl (noteCall a) ∅

/-- The controller calls that concern address `a`, in order: `true` for a
`BTM_WhiteListAdd(a)` that answered true, `false` for a `BTM_WhiteListRemove(a)`. -/
def filterEvents (a : RawAddress) : List BtmCall → List Bool
  | [] => []
  | BtmCall.WhiteListAdd b ok :: rest =>
    if b = a ∧ ok = true then true :: filterEvents a rest else filterEvents a rest
  | BtmCall.WhiteListRemove b :: rest =>
    if b = a then false :: filterEvents a rest else filterEvents a rest
  | BtmCall.WhiteListClear :: rest => filterEvents a rest

/-- The strictly alternating sequence add, remove, add, ... of a given length. -/
def alternating (n : Nat) : List Bool :=
  (List.range n).map (fun i => decide (i % 2 = 0))

/-- Some record of the list with address `a` holds the application `x`. -/
def HasInterest (bgconn_dev : List tGATT_BG_CONN_DEV) (a : RawAddress) (x : tGATT_IF) : Prop :=
  ∃ d ∈ bgconn_dev, d.remote_bda = a ∧ x ∈ d.gatt_if

/-- The three forms the controller calls of one interest call take, against the
addresses of the list before and after it: a refused `BTM_WhiteListAdd` for an
address not in the list, which stays as it is; an accepted one for an address not
in the list, which gains it; or `BTM_WhiteListRemove` for distinct addresses of
the list, which loses exactly those. -/
def StepShape (before after : List RawAddress) (calls : List BtmCall) : Prop :=
  (∃ b, b ∉ before ∧ calls = [BtmCall.WhiteListAdd b false] ∧ after = before) ∨
  (∃ b, b ∉ before ∧ calls = [BtmCall.WhiteListAdd b true] ∧ after = before ++ [b]) ∨
  (∃ rs : List RawAddress, calls = rs.map BtmCall.WhiteListRemove ∧ rs.Nodup ∧
    (∀ a ∈ rs, a ∈ before) ∧ ∀ a, a ∈ after ↔ (a ∈ before ∧ a ∉ rs))

/-- What holds of every run of interest calls: distinct addresses, no empty
interest set, the interest sets are the outstanding registrations, and for every
address the accepted `BTM_WhiteListAdd` and the `BTM_WhiteListRemove` calls
alternate, the last one being an add exactly when the address has a record. -/
def RunInvariant (t : Trace) : Prop :=
  (addresses t.bgconn_dev).Nodup ∧
  (∀ d ∈ t.bgconn_dev, d.gatt_if ≠ ∅) ∧
  (∀ a x, HasInterest t.bgconn_dev a x ↔ x ∈ outstanding a t.history) ∧
  (∀ a, ∃ n, filterEvents a t.calls = alternating n ∧
    (n % 2 = 1 ↔ a ∈ addresses t.bgconn_dev))

/-- The records of the list that have a given address, in list order. -/
def recordsFor (bgconn_dev : List tGATT_BG_CONN_DEV) (a : RawAddress) :
    List tGATT_BG_CONN_DEV :=
  bgconn_dev.filter (fun d => decide (d.remote_bda = a))

/-! ## Positions in the list -/

theorem getElem?_at_split (pre post : List tGATT_BG_CONN_DEV) (d : tGATT_BG_CONN_DEV) :
    (pre ++ d :: post)[pre.length]? = some d := by
  induction pre with
  | nil => simp
  | cons x xs ih => simpa using ih

theorem set_at_split (pre post : List tGATT_BG_CONN_DEV) (d e : tGATT_BG_CONN_DEV) :
    (pre ++ d :: post).set pre.length e = pre ++ e :: post := by
  induction pre with
  | nil => simp
  | cons x xs ih => simp

theorem modify_at_split (f : tGATT_BG_CONN_DEV → tGATT_BG_CONN_DEV)
    (pre post : List tGATT_BG_CONN_DEV) (d : tGATT_BG_CONN_DEV) :
    (pre ++ d :: post).modify f pre.length = pre ++ f d :: post := by
  induction pre with
  | nil => simp
  | cons x xs ih => simpa using ih

theorem eraseIdx_at_split (pre post : List tGATT_BG_CONN_DEV) (d : tGATT_BG_CONN_DEV) :
    (pre ++ d :: post).eraseIdx pre.length = pre ++ post := by
  induction pre with
  | nil => simp
  | cons x xs ih => simpa using ih

theorem getElem?_at_end (pre : List tGATT_BG_CONN_DEV) : pre[pre.length]? = none := by
  simp

/-! ## The two lookups -/

theorem find_of_absent (a : RawAddress) (l : List tGATT_BG_CONN_DEV)
    (h : ∀ d ∈ l, d.remote_bda ≠ a) : gatt_find_bg_dev a l = none := by
  induction l with
  | nil => rfl
  | cons x xs ih =>
    have hx : x.remote_bda ≠ a := h x (List.mem_cons_self _ _)
    have hxs : ∀ d ∈ xs, d.remote_bda ≠ a := fun d hd => h d (List.mem_cons_of_mem _ hd)
    simp [gatt_find_bg_dev, hx, ih hxs]

theorem find_it_of_absent (a : RawAddress) (l : List tGATT_BG_CONN_DEV)
    (h : ∀ d ∈ l, d.remote_bda ≠ a) : gatt_find_bg_dev_it a l = l.length := by
  induction l with
  | nil => rfl
  | cons x xs ih =>
    have hx : x.remote_bda ≠ a := h x (List.mem_cons_self _ _)
    have hxs : ∀ d ∈ xs, d.remote_bda ≠ a := fun d hd => h d (List.mem_cons_of_mem _ hd)
    simp [gatt_find_bg_dev_it, hx, ih hxs]

theorem find_at_split (a : RawAddress) (pre post : List tGATT_BG_CONN_DEV)
    (d : tGATT_BG_CONN_DEV) (hpre : ∀ e ∈ pre, e.remote_bda ≠ a) (hd : d.remote_bda = a) :
    gatt_find_bg_dev a (pre ++ d :: post) = some pre.length := by
  induction pre with
  | nil => simp [gatt_find_bg_dev, hd]
  | cons x xs ih =>
    have hx : x.remote_bda ≠ a := hpre x (List.mem_cons_self _ _)
    have hxs : ∀ e ∈ xs, e.remote_bda ≠ a := fun e he => hpre e (List.mem_cons_of_mem _ he)
    simp [gatt_find_bg_dev, hx, ih hxs]

theorem find_it_at_split (a : RawAddress) (pre post : List tGATT_BG_CONN_DEV)
    (d : tGATT_BG_CONN_DEV) (hpre : ∀ e ∈ pre, e.remote_bda ≠ a) (hd : d.remote_bda = a) :
    gatt_find_bg_dev_it a (pre ++ d :: post) = pre.length := by
  induction pre with
  | nil => simp [gatt_find_bg_dev_it, hd]
  | cons x xs ih =>
    have hx : x.remote_bda ≠ a := hpre x (List.mem_cons_self _ _)
    have hxs : ∀ e ∈ xs, e.remote_bda ≠ a := fun e he => hpre e (List.mem_cons_of_mem _ he)
    simp [gatt_find_bg_dev_it, hx, ih hxs]

/-- A list either has no record with the address or splits at the first one. -/
theorem absent_or_split (a : RawAddress) (l : List tGATT_BG_CONN_DEV) :
    (∀ d ∈ l, d.remote_bda ≠ a) ∨
    ∃ pre d post, l = pre ++ d :: post ∧ (∀ e ∈ pre, e.remote_bda ≠ a) ∧ d.remote_bda = a := by
  induction l with
  | nil => left; simp
  | cons x xs ih =>
    by_cases hx : x.remote_bda = a
    · right; exact ⟨[], x, xs, rfl, by simp, hx⟩
    · rcases ih with h | ⟨pre, d, post, hl, hpre, hd⟩
      · left
        intro e he
        rcases List.mem_cons.mp he with rfl | he
        · exact hx
        · exact h e he
      · right
        refine ⟨x :: pre, d, post, by simp [hl], ?_, hd⟩
        intro e he
        rcases List.mem_cons.mp he with rfl | he
        · exact hx
        · exact hpre e he

/-- The first record with an address is determined by the list. -/
theorem split_unique (a : RawAddress) (pre pre2 post post2 : List tGATT_BG_CONN_DEV)
    (d d2 : tGATT_BG_CONN_DEV) (h : pre ++ d :: post = pre2 ++ d2 :: post2)
    (hpre : ∀ e ∈ pre, e.remote_bda ≠ a) (hd : d.remote_bda = a)
    (hpre2 : ∀ e ∈ pre2, e.remote_bda ≠ a) (hd2 : d2.remote_bda = a) :
    pre = pre2 ∧ d = d2 ∧ post = post2 := by
  have h1 := find_it_at_split a pre post d hpre hd
  have h2 := find_it_at_split a pre2 post2 d2 hpre2 hd2
  rw [h] at h1
  have hlen : pre.length = pre2.length := by rw [← h1, ← h2]
  have := List.append_inj h hlen
  simp_all

/-! ## What each operation computes -/

theorem add_at_split (wl : RawAddress → Bool) (pre post : List tGATT_BG_CONN_DEV)
    (d : tGATT_BG_CONN_DEV) (p_reg : tGATT_REG) (a : RawAddress)
    (hpre : ∀ e ∈ pre, e.remote_bda ≠ a) (hd : d.remote_bda = a) :
    gatt_add_bg_dev_list wl (pre ++ d :: post) p_reg a
      = ⟨true, pre ++ ⟨insert p_reg.gatt_if d.gatt_if, a⟩ :: post, []⟩ := by
  simp [gatt_add_bg_dev_list, find_at_split a pre post d hpre hd, modify_at_split,
    unordered_set_insert, hd]

theorem add_of_absent (wl : RawAddress → Bool) (l : List tGATT_BG_CONN_DEV)
    (p_reg : tGATT_REG) (a : RawAddress) (h : ∀ d ∈ l, d.remote_bda ≠ a) :
    gatt_add_bg_dev_list wl l p_reg a
      = if wl a = true then ⟨true, l ++ [⟨{p_reg.gatt_if}, a⟩], [BtmCall.WhiteListAdd a true]⟩
        else ⟨false, l, [BtmCall.WhiteListAdd a false]⟩ := by
  cases hw : wl a <;>
    simp [gatt_add_bg_dev_list, find_of_absent a l h, unordered_set_insert, hw]

theorem remove_of_absent (l : List tGATT_BG_CONN_DEV) (p_reg : tGATT_REG) (a : RawAddress)
    (h : ∀ d ∈ l, d.remote_bda ≠ a) :
    gatt_remove_bg_dev_from_list l p_reg a = ⟨false, l, []⟩ := by
  simp [gatt_remove_bg_dev_from_list, find_it_of_absent a l h]

theorem remove_at_split (pre post : List tGATT_BG_CONN_DEV) (d : tGATT_BG_CONN_DEV)
    (p_reg : tGATT_REG) (a : RawAddress)
    (hpre : ∀ e ∈ pre, e.remote_bda ≠ a) (hd : d.remote_bda = a) :
    gatt_remove_bg_dev_from_list (pre ++ d :: post) p_reg a
      = if p_reg.gatt_if ∉ d.gatt_if then ⟨false, pre ++ d :: post, []⟩
        else if d.gatt_if.erase p_reg.gatt_if ≠ ∅ then
          ⟨true, pre ++ ⟨d.gatt_if.erase p_reg.gatt_if, a⟩ :: post, []⟩
        else ⟨true, pre ++ post, [BtmCall.WhiteListRemove a]⟩ := by
  simp only [gatt_remove_bg_dev_from_list, find_it_at_split a pre post d hpre hd,
    getElem?_at_split, set_at_split, eraseIdx_at_split, unordered_set_erase]
  by_cases hm : p_reg.gatt_if ∈ d.gatt_if
  · by_cases he : d.gatt_if.erase p_reg.gatt_if = ∅
    · simp [hm, he, hd]
    · simp [hm, he, hd]
  · have hde : (⟨d.gatt_if.erase p_reg.gatt_if, d.remote_bda⟩ : tGATT_BG_CONN_DEV) = d := by
      cases d; simp [Finset.erase_eq_of_not_mem hm]
    simp [hm, hde]

theorem clear_of_absent (l : List tGATT_BG_CONN_DEV) (a : RawAddress)
    (h : ∀ d ∈ l, d.remote_bda ≠ a) :
    gatt_clear_bg_dev_for_addr l a = ⟨false, l, []⟩ := by
  simp [gatt_clear_bg_dev_for_addr, find_it_of_absent a l h]

theorem clear_at_split (pre post : List tGATT_BG_CONN_DEV) (d : tGATT_BG_CONN_DEV)
    (a : RawAddress) (hpre : ∀ e ∈ pre, e.remote_bda ≠ a) (hd : d.remote_bda = a) :
    gatt_clear_bg_dev_for_addr (pre ++ d :: post) a
      = ⟨true, pre ++ post, [BtmCall.WhiteListRemove a]⟩ := by
  simp only [gatt_clear_bg_dev_for_addr, find_it_at_split a pre post d hpre hd,
    getElem?_at_split, eraseIdx_at_split, hd]

/-- The loop of `gatt_deregister_bgdev_list`, entered with the iterator after
`pre` and enough fuel for the records still ahead, ends with the spec's result
for those records. -/
theorem deregister_loop_eq (gatt_if : tGATT_IF) (rest : List tGATT_BG_CONN_DEV) :
    ∀ (fuel : Nat) (pre : List tGATT_BG_CONN_DEV) (calls : List BtmCall),
      rest.length + 1 ≤ fuel →
      gatt_deregister_bgdev_list_loop gatt_if fuel (pre ++ rest) pre.length calls
        = some ⟨(), pre ++ spec_DeregisterApp_records rest gatt_if,
            calls ++ spec_DeregisterApp_calls rest gatt_if⟩ := by
  induction rest with
  | nil =>
    intro fuel pre calls hf
    obtain ⟨n, rfl⟩ : ∃ n, fuel = n + 1 := ⟨fuel - 1, by omega⟩
    simp [gatt_deregister_bgdev_list_loop, spec_DeregisterApp_records,
      spec_DeregisterApp_calls]
  | cons d ds ih =>
    intro fuel pre calls hf
    obtain ⟨n, rfl⟩ : ∃ n, fuel = n + 1 := ⟨fuel - 1, by omega⟩
    have hn : ds.length + 1 ≤ n := by simpa using hf
    simp only [gatt_deregister_bgdev_list_loop, getElem?_at_split, set_at_split,
      eraseIdx_at_split, unordered_set_erase]
    by_cases he : d.gatt_if.erase gatt_if = ∅
    · have h := ih n pre (calls ++ [BtmCall.WhiteListRemove d.remote_bda]) hn
      simp [he, h, spec_DeregisterApp_records, spec_DeregisterApp_calls]
    · have h := ih n (pre ++ [⟨d.gatt_if.erase gatt_if, d.remote_bda⟩]) calls hn
      simp only [List.length_append, List.length_singleton, List.append_assoc,
        List.singleton_append] at h
      simp [he, h, spec_DeregisterApp_records, spec_DeregisterApp_calls]

theorem deregister_eq (l : List tGATT_BG_CONN_DEV) (gatt_if : tGATT_IF) :
    gatt_deregister_bgdev_list l gatt_if
      = some ⟨(), spec_DeregisterApp_records l gatt_if, spec_DeregisterApp_calls l gatt_if⟩ := by
  have h := deregister_loop_eq gatt_if l (l.length + 1) [] [] (le_refl _)
  simpa [gatt_deregister_bgdev_list] using h

/-! ## AddInterest: `gatt_add_bg_dev_list` -/

/-- C2: when `gatt_add_bg_dev_list` returns false the device list is the one it
was given, it holds no record for the address, and the application is not
reported as interested in the address. -/
theorem add_failure_is_atomic (wl : RawAddress → Bool) (l : List tGATT_BG_CONN_DEV)
    (p_reg : tGATT_REG) (a : RawAddress)
    (h : (gatt_add_bg_dev_list wl l p_reg a).ret = false) :
    (gatt_add_bg_dev_list wl l p_reg a).bgconn_dev = l ∧
    (∀ d ∈ (gatt_add_bg_dev_list wl l p_reg a).bgconn_dev, d.remote_bda ≠ a) ∧
    IsInterested (gatt_add_bg_dev_list wl l p_reg a).bgconn_dev a p_reg.gatt_if = false := by
  rcases absent_or_split a l with habs | ⟨pre, d, post, rfl, hpre, hd⟩
  · have e := add_of_absent wl l p_reg a habs
    cases hw : wl a
    · simp only [hw, Bool.false_eq_true, if_false] at e
      rw [e]
      exact ⟨rfl, habs, by simp [IsInterested, find_of_absent a l habs]⟩
    · simp [e, hw] at h
  · rw [add_at_split wl pre post d p_reg a hpre hd] at h
    simp at h

theorem add_failure_is_atomic_witness :
    (gatt_add_bg_dev_list (fun _ => false) [⟨{1}, 10⟩] ⟨1⟩ 20).ret = false ∧
    ((gatt_add_bg_dev_list (fun _ => false) [⟨{1}, 10⟩] ⟨1⟩ 20).bgconn_dev = [⟨{1}, 10⟩] ∧
     (∀ d ∈ (gatt_add_bg_dev_list (fun _ => false) [⟨{1}, 10⟩] ⟨1⟩ 20).bgconn_dev,
        d.remote_bda ≠ 20) ∧
     IsInterested (gatt_add_bg_dev_list (fun _ => false) [⟨{1}, 10⟩] ⟨1⟩ 20).bgconn_dev 20
        (tGATT_REG.mk 1).gatt_if = false) :=
  ⟨by decide, add_failure_is_atomic (fun _ => false) [⟨{1}, 10⟩] ⟨1⟩ 20 (by decide)⟩

/-- C3: `gatt_add_bg_dev_list` returns false exactly when the list has no record for
the address and `BTM_WhiteListAdd` answers false for it (that call being the one it
made); with a record present, or with a true answer, it returns true. -/
theorem add_returns_false_iff (wl : RawAddress → Bool) (l : List tGATT_BG_CONN_DEV)
    (p_reg : tGATT_REG) (a : RawAddress) :
    ((gatt_add_bg_dev_list wl l p_reg a).ret = false ↔
      ((∀ d ∈ l, d.remote_bda ≠ a) ∧ wl a = false ∧
        (gatt_add_bg_dev_list wl l p_reg a).calls = [BtmCall.WhiteListAdd a false])) ∧
    ((gatt_add_bg_dev_list wl l p_reg a).ret = true ↔
      ((∃ d ∈ l, d.remote_bda = a) ∨ wl a = true)) := by
  rcases absent_or_split a l with habs | ⟨pre, d, post, rfl, hpre, hd⟩
  · rw [add_of_absent wl l p_reg a habs]
    have hno : ¬ ∃ d ∈ l, d.remote_bda = a := fun ⟨d, hd, hda⟩ => habs d hd hda
    cases hw : wl a
    · simp [hno]
      exact habs
    · simp
  · rw [add_at_split wl pre post d p_reg a hpre hd]
    have hex : ∃ e ∈ pre ++ d :: post, e.remote_bda = a := ⟨d, by simp, hd⟩
    have hno : ¬ ∀ e ∈ pre ++ d :: post, e.remote_bda ≠ a :=
      fun hall => hall d (by simp) hd
    exact ⟨⟨fun h => by simp at h, fun h => absurd h.1 hno⟩, fun _ => Or.inl hex, fun _ => rfl⟩

theorem add_returns_false_iff_witness :
    ((gatt_add_bg_dev_list (fun _ => false) [⟨{1}, 10⟩] ⟨2⟩ 20).ret = false ↔
      ((∀ d ∈ [(⟨{1}, 10⟩ : tGATT_BG_CONN_DEV)], d.remote_bda ≠ 20) ∧
        (fun _ => false) (20 : RawAddress) = false ∧
        (gatt_add_bg_dev_list (fun _ => false) [⟨{1}, 10⟩] ⟨2⟩ 20).calls
          = [BtmCall.WhiteListAdd 20 false])) ∧
    ((gatt_add_bg_dev_list (fun _ => false) [⟨{1}, 10⟩] ⟨2⟩ 20).ret = true ↔
      ((∃ d ∈ [(⟨{1}, 10⟩ : tGATT_BG_CONN_DEV)], d.remote_bda = 20) ∨
        (fun _ => false) (20 : RawAddress) = true)) :=
  add_returns_false_iff (fun _ => false) [⟨{1}, 10⟩] ⟨2⟩ 20

/-- C4: when the list has a record for the address, `gatt_add_bg_dev_list` makes no
controller call, returns true, and changes only the first such record, whose
interest set gains the application; the list is unchanged when the application
was already in that set, and its length is always unchanged. -/
theorem add_to_existing_record (wl : RawAddress → Bool) (l : List tGATT_BG_CONN_DEV)
    (p_reg : tGATT_REG) (a : RawAddress) (h : ∃ d ∈ l, d.remote_bda = a) :
    ∃ pre d post, l = pre ++ d :: post ∧ (∀ e ∈ pre, e.remote_bda ≠ a) ∧ d.remote_bda = a ∧
      gatt_add_bg_dev_list wl l p_reg a
        = ⟨true, pre ++ { d with gatt_if := insert p_reg.gatt_if d.gatt_if } :: post, []⟩ ∧
      (p_reg.gatt_if ∈ d.gatt_if → (gatt_add_bg_dev_list wl l p_reg a).bgconn_dev = l) ∧
      (gatt_add_bg_dev_list wl l p_reg a).bgconn_dev.length = l.length := by
  rcases absent_or_split a l with habs | ⟨pre, d, post, rfl, hpre, hd⟩
  · obtain ⟨d, hd, hda⟩ := h
    exact absurd hda (habs d hd)
  · refine ⟨pre, d, post, rfl, hpre, hd, ?_, ?_, ?_⟩
    · rw [add_at_split wl pre post d p_reg a hpre hd, ← hd]
    · intro hm
      rw [add_at_split wl pre post d p_reg a hpre hd, ← hd]
      simp [Finset.insert_eq_of_mem hm]
    · rw [add_at_split wl pre post d p_reg a hpre hd]
      simp

theorem add_to_existing_record_witness :
    (∃ d ∈ [(⟨{1}, 10⟩ : tGATT_BG_CONN_DEV), ⟨{1, 2}, 20⟩], d.remote_bda = 20) ∧
    ∃ pre d post, [(⟨{1}, 10⟩ : tGATT_BG_CONN_DEV), ⟨{1, 2}, 20⟩] = pre ++ d :: post ∧
      (∀ e ∈ pre, e.remote_bda ≠ 20) ∧ d.remote_bda = 20 ∧
      gatt_add_bg_dev_list (fun _ => false) [⟨{1}, 10⟩, ⟨{1, 2}, 20⟩] ⟨3⟩ 20
        = ⟨true, pre ++ { d with gatt_if := insert (tGATT_REG.mk 3).gatt_if d.gatt_if } :: post,
            []⟩ ∧
      ((tGATT_REG.mk 3).gatt_if ∈ d.gatt_if →
        (gatt_add_bg_dev_list (fun _ => false) [⟨{1}, 10⟩, ⟨{1, 2}, 20⟩] ⟨3⟩ 20).bgconn_dev
          = [⟨{1}, 10⟩, ⟨{1, 2}, 20⟩]) ∧
      (gatt_add_bg_dev_list (fun _ => false) [⟨{1}, 10⟩, ⟨{1, 2}, 20⟩] ⟨3⟩ 20).bgconn_dev.length
        = [(⟨{1}, 10⟩ : tGATT_BG_CONN_DEV), ⟨{1, 2}, 20⟩].length :=
  ⟨⟨⟨{1, 2}, 20⟩, by simp, rfl⟩,
   add_to_existing_record (fun _ => false) [⟨{1}, 10⟩, ⟨{1, 2}, 20⟩] ⟨3⟩ 20
     ⟨⟨{1, 2}, 20⟩, by simp, rfl⟩⟩

/-- C5: when the list has no record for the address and `BTM_WhiteListAdd` answers
true, `gatt_add_bg_dev_list` makes that one call, returns true, and appends the
record of the address with the application as its only interested one. -/
theorem add_to_absent_address (wl : RawAddress → Bool) (l : List tGATT_BG_CONN_DEV)
    (p_reg : tGATT_REG) (a : RawAddress) (h : ∀ d ∈ l, d.remote_bda ≠ a)
    (hok : wl a = true) :
    gatt_add_bg_dev_list wl l p_reg a
      = ⟨true, l ++ [⟨{p_reg.gatt_if}, a⟩], [BtmCall.WhiteListAdd a true]⟩ := by
  rw [add_of_absent wl l p_reg a h]
  simp [hok]

theorem add_to_absent_address_witness :
    (∀ d ∈ [(⟨{1}, 10⟩ : tGATT_BG_CONN_DEV)], d.remote_bda ≠ 20) ∧
    (fun _ => true) (20 : RawAddress) = true ∧
    gatt_add_bg_dev_list (fun _ => true) [⟨{1}, 10⟩] ⟨2⟩ 20
      = ⟨true, [⟨{1}, 10⟩] ++ [⟨{(tGATT_REG.mk 2).gatt_if}, 20⟩], [BtmCall.WhiteListAdd 20 true]⟩ :=
  ⟨by decide, rfl,
   add_to_absent_address (fun _ => true) [⟨{1}, 10⟩] ⟨2⟩ 20 (by decide) rfl⟩

/-! ## RemoveInterest: `gatt_remove_bg_dev_from_list` -/

/-- C6: `gatt_remove_bg_dev_from_list` returns false exactly when the list has no
record for the address or the first record for the address does not hold the
application; whenever it returns false the list is unchanged and no controller
call was made. -/
theorem remove_not_found (l : List tGATT_BG_CONN_DEV) (p_reg : tGATT_REG) (a : RawAddress) :
    ((gatt_remove_bg_dev_from_list l p_reg a).ret = false ↔
      ((∀ d ∈ l, d.remote_bda ≠ a) ∨
        ∃ pre d post, l = pre ++ d :: post ∧ (∀ e ∈ pre, e.remote_bda ≠ a) ∧
          d.remote_bda = a ∧ p_reg.gatt_if ∉ d.gatt_if)) ∧
    ((gatt_remove_bg_dev_from_list l p_reg a).ret = false →
      (gatt_remove_bg_dev_from_list l p_reg a).bgconn_dev = l ∧
      (gatt_remove_bg_dev_from_list l p_reg a).calls = []) := by
  rcases absent_or_split a l with habs | ⟨pre, d, post, rfl, hpre, hd⟩
  · rw [remove_of_absent l p_reg a habs]
    exact ⟨⟨fun _ => Or.inl habs, fun _ => rfl⟩, fun _ => ⟨rfl, rfl⟩⟩
  · rw [remove_at_split pre post d p_reg a hpre hd]
    by_cases hm : p_reg.gatt_if ∈ d.gatt_if
    · have hret : ∀ o1 o2 : Outcome Bool, o1.ret = true → o2.ret = true →
          (if d.gatt_if.erase p_reg.gatt_if ≠ ∅ then o1 else o2).ret = true := by
        intro o1 o2 h1 h2
        split <;> assumption
      simp only [hm, not_true_eq_false, if_false]
      have ht := hret ⟨true, pre ++ ⟨d.gatt_if.erase p_reg.gatt_if, a⟩ :: post, []⟩
        ⟨true, pre ++ post, [BtmCall.WhiteListRemove a]⟩ rfl rfl
      refine ⟨⟨fun h => ?_, fun h => ?_⟩, fun h => ?_⟩
      · rw [ht] at h
        exact absurd h (by simp)
      · rcases h with h | ⟨pre2, d2, post2, hl, hpre2, hd2, hm2⟩
        · exact absurd hd (h d (by simp))
        · obtain ⟨-, hdd, -⟩ := split_unique a pre pre2 post post2 d d2 hl hpre hd hpre2 hd2
          rw [← hdd] at hm2
          exact absurd hm hm2
      · rw [ht] at h
        exact absurd h (by simp)
    · rw [if_pos hm]
      exact ⟨⟨fun _ => Or.inr ⟨pre, d, post, rfl, hpre, hd, hm⟩, fun _ => rfl⟩,
        fun _ => ⟨rfl, rfl⟩⟩

theorem remove_not_found_witness :
    ((gatt_remove_bg_dev_from_list [⟨{1}, 10⟩, ⟨{1, 2}, 20⟩] ⟨3⟩ 20).ret = false ↔
      ((∀ d ∈ [(⟨{1}, 10⟩ : tGATT_BG_CONN_DEV), ⟨{1, 2}, 20⟩], d.remote_bda ≠ 20) ∨
        ∃ pre d post, [(⟨{1}, 10⟩ : tGATT_BG_CONN_DEV), ⟨{1, 2}, 20⟩] = pre ++ d :: post ∧
          (∀ e ∈ pre, e.remote_bda ≠ 20) ∧
          d.remote_bda = 20 ∧ (tGATT_REG.mk 3).gatt_if ∉ d.gatt_if)) ∧
    ((gatt_remove_bg_dev_from_list [⟨{1}, 10⟩, ⟨{1, 2}, 20⟩] ⟨3⟩ 20).ret = false →
      (gatt_remove_bg_dev_from_list [⟨{1}, 10⟩, ⟨{1, 2}, 20⟩] ⟨3⟩ 20).bgconn_dev
        = [⟨{1}, 10⟩, ⟨{1, 2}, 20⟩] ∧
      (gatt_remove_bg_dev_from_list [⟨{1}, 10⟩, ⟨{1, 2}, 20⟩] ⟨3⟩ 20).calls = []) :=
  remove_not_found [⟨{1}, 10⟩, ⟨{1, 2}, 20⟩] ⟨3⟩ 20

/-- C7: when the first record for the address holds the application,
`gatt_remove_bg_dev_from_list` returns true; the record stays in place without the
application when other applications remain, and is deleted when the application
was its only one; the records before and after it are untouched. -/
theorem remove_success (l pre post : List tGATT_BG_CONN_DEV) (d : tGATT_BG_CONN_DEV)
    (p_reg : tGATT_REG) (a : RawAddress) (hl : l = pre ++ d :: post)
    (hpre : ∀ e ∈ pre, e.remote_bda ≠ a) (hd : d.remote_bda = a)
    (happ : p_reg.gatt_if ∈ d.gatt_if) :
    (gatt_remove_bg_dev_from_list l p_reg a).ret = true ∧
    (d.gatt_if.erase p_reg.gatt_if ≠ ∅ →
      (gatt_remove_bg_dev_from_list l p_reg a).bgconn_dev
        = pre ++ { d with gatt_if := d.gatt_if.erase p_reg.gatt_if } :: post) ∧
    (d.gatt_if = {p_reg.gatt_if} →
      (gatt_remove_bg_dev_from_list l p_reg a).bgconn_dev = pre ++ post) := by
  subst hl
  rw [remove_at_split pre post d p_reg a hpre hd]
  simp only [happ, not_true_eq_false, if_false]
  by_cases he : d.gatt_if.erase p_reg.gatt_if = ∅
  · refine ⟨by simp [he], fun h => absurd he h, fun _ => by simp [he]⟩
  · refine ⟨by simp [he], fun _ => by simp [he, hd], fun h => ?_⟩
    exact absurd (by simp [h]) he

theorem remove_success_witness :
    ([(⟨{1}, 10⟩ : tGATT_BG_CONN_DEV), ⟨{1, 2}, 20⟩, ⟨{2}, 30⟩]
        = [⟨{1}, 10⟩] ++ ⟨{1, 2}, 20⟩ :: [⟨{2}, 30⟩]) ∧
    (∀ e ∈ [(⟨{1}, 10⟩ : tGATT_BG_CONN_DEV)], e.remote_bda ≠ 20) ∧
    (tGATT_BG_CONN_DEV.mk {1, 2} 20).remote_bda = 20 ∧
    (tGATT_REG.mk 2).gatt_if ∈ (tGATT_BG_CONN_DEV.mk {1, 2} 20).gatt_if ∧
    ((gatt_remove_bg_dev_from_list [⟨{1}, 10⟩, ⟨{1, 2}, 20⟩, ⟨{2}, 30⟩] ⟨2⟩ 20).ret = true ∧
     ((tGATT_BG_CONN_DEV.mk {1, 2} 20).gatt_if.erase (tGATT_REG.mk 2).gatt_if ≠ ∅ →
       (gatt_remove_bg_dev_from_list [⟨{1}, 10⟩, ⟨{1, 2}, 20⟩, ⟨{2}, 30⟩] ⟨2⟩ 20).bgconn_dev
         = [⟨{1}, 10⟩] ++
           { tGATT_BG_CONN_DEV.mk {1, 2} 20 with
             gatt_if := (tGATT_BG_CONN_DEV.mk {1, 2} 20).gatt_if.erase (tGATT_REG.mk 2).gatt_if }
           :: [⟨{2}, 30⟩]) ∧
     ((tGATT_BG_CONN_DEV.mk {1, 2} 20).gatt_if = {(tGATT_REG.mk 2).gatt_if} →
       (gatt_remove_bg_dev_from_list [⟨{1}, 10⟩, ⟨{1, 2}, 20⟩, ⟨{2}, 30⟩] ⟨2⟩ 20).bgconn_dev
         = [⟨{1}, 10⟩] ++ [⟨{2}, 30⟩])) :=
  ⟨rfl, by decide, rfl, by decide,
   remove_success [⟨{1}, 10⟩, ⟨{1, 2}, 20⟩, ⟨{2}, 30⟩] [⟨{1}, 10⟩] [⟨{2}, 30⟩] ⟨{1, 2}, 20⟩
      ⟨2⟩ 20 rfl (by decide) rfl (by decide)⟩

/-- C8: `gatt_remove_bg_dev_from_list` calls `BTM_WhiteListRemove` once, for the
address, and nothing else, when the interest set of the first record for the
address is exactly the application; in every other case it makes no controller
call, in particular when that record holds another application. -/
theorem remove_filter_calls (l : List tGATT_BG_CONN_DEV) (p_reg : tGATT_REG) (a : RawAddress) :
    ((∃ pre d post, l = pre ++ d :: post ∧ (∀ e ∈ pre, e.remote_bda ≠ a) ∧
        d.remote_bda = a ∧ d.gatt_if = {p_reg.gatt_if}) →
      (gatt_remove_bg_dev_from_list l p_reg a).calls = [BtmCall.WhiteListRemove a]) ∧
    ((¬ ∃ pre d post, l = pre ++ d :: post ∧ (∀ e ∈ pre, e.remote_bda ≠ a) ∧
        d.remote_bda = a ∧ d.gatt_if = {p_reg.gatt_if}) →
      (gatt_remove_bg_dev_from_list l p_reg a).calls = []) ∧
    (∀ pre d post other, l = pre ++ d :: post → (∀ e ∈ pre, e.remote_bda ≠ a) →
        d.remote_bda = a → other ∈ d.gatt_if → other ≠ p_reg.gatt_if →
      (gatt_remove_bg_dev_from_list l p_reg a).calls = []) := by
  have key : ∀ pre d post, l = pre ++ d :: post → (∀ e ∈ pre, e.remote_bda ≠ a) →
      d.remote_bda = a →
      (gatt_remove_bg_dev_from_list l p_reg a).calls
        = if d.gatt_if = {p_reg.gatt_if} then [BtmCall.WhiteListRemove a] else [] := by
    intro pre d post hl hpre hd
    subst hl
    rw [remove_at_split pre post d p_reg a hpre hd]
    by_cases hm : p_reg.gatt_if ∈ d.gatt_if
    · by_cases he : d.gatt_if.erase p_reg.gatt_if = ∅
      · have hs : d.gatt_if = {p_reg.gatt_if} := by
          rw [Finset.erase_eq_empty_iff] at he
          rcases he with he | he
          · rw [he] at hm; simp at hm
          · exact he
        simp [hm, he, hs]
      · have hs : d.gatt_if ≠ {p_reg.gatt_if} := by
          intro hs
          exact he (by simp [hs])
        simp [hm, he, hs]
    · have hs : d.gatt_if ≠ {p_reg.gatt_if} := by
        intro hs
        exact hm (by simp [hs])
      simp [hm, hs]
  refine ⟨?_, ?_, ?_⟩
  · rintro ⟨pre, d, post, hl, hpre, hd, hs⟩
    rw [key pre d post hl hpre hd, if_pos hs]
  · intro hno
    rcases absent_or_split a l with habs | ⟨pre, d, post, hl, hpre, hd⟩
    · rw [remove_of_absent l p_reg a habs]
    · have hs : d.gatt_if ≠ {p_reg.gatt_if} :=
        fun hs => hno ⟨pre, d, post, hl, hpre, hd, hs⟩
      rw [key pre d post hl hpre hd, if_neg hs]
  · intro pre d post other hl hpre hd hother hne
    have hs : d.gatt_if ≠ {p_reg.gatt_if} := by
      intro hs
      rw [hs] at hother
      exact hne (by simpa using hother)
    rw [key pre d post hl hpre hd, if_neg hs]

theorem remove_filter_calls_witness :
    (gatt_remove_bg_dev_from_list [⟨{1}, 10⟩, ⟨{2}, 20⟩] ⟨2⟩ 20).calls
      = [BtmCall.WhiteListRemove 20] ∧
    (gatt_remove_bg_dev_from_list [⟨{1}, 10⟩, ⟨{2, 3}, 20⟩] ⟨2⟩ 20).calls = [] :=
  ⟨(remove_filter_calls [⟨{1}, 10⟩, ⟨{2}, 20⟩] ⟨2⟩ 20).1
      ⟨[⟨{1}, 10⟩], ⟨{2}, 20⟩, [], rfl, by decide, rfl, rfl⟩,
   (remove_filter_calls [⟨{1}, 10⟩, ⟨{2, 3}, 20⟩] ⟨2⟩ 20).2.2
      [⟨{1}, 10⟩] ⟨{2, 3}, 20⟩ [] 3 rfl (by decide) rfl (by decide) (by decide)⟩

/-! ## DeregisterApp: `gatt_deregister_bgdev_list` -/

theorem mem_of_IsInterested (l : List tGATT_BG_CONN_DEV) (a : RawAddress) (app : tGATT_IF)
    (h : IsInterested l a app = true) : ∃ d ∈ l, app ∈ d.gatt_if := by
  rcases absent_or_split a l with habs | ⟨pre, d, post, rfl, hpre, hd⟩
  · simp [IsInterested, find_of_absent a l habs] at h
  · simp only [IsInterested, find_at_split a pre post d hpre hd, getElem?_at_split,
      gatt_is_bg_dev_for_app, unordered_set_count] at h
    refine ⟨d, by simp, ?_⟩
    by_contra hm
    simp [hm] at h

/-- C9: `gatt_deregister_bgdev_list` ends, leaving the original list with the
application erased from every interest set and the records whose set became
empty dropped, in the original order; it calls `BTM_WhiteListRemove` once for the
address of each dropped record, in list order, and makes no other call; afterwards
no record holds the application and none has an empty interest set. -/
theorem deregister_sweep (l : List tGATT_BG_CONN_DEV) (app : tGATT_IF) :
    ∃ o, gatt_deregister_bgdev_list l app = some o ∧
      o.bgconn_dev = spec_DeregisterApp_records l app ∧
      o.calls = spec_DeregisterApp_calls l app ∧
      (∀ d ∈ o.bgconn_dev, app ∉ d.gatt_if ∧ d.gatt_if ≠ ∅) ∧
      (∀ a, IsInterested o.bgconn_dev a app = false) := by
  have hmem : ∀ d ∈ spec_DeregisterApp_records l app, app ∉ d.gatt_if ∧ d.gatt_if ≠ ∅ := by
    intro d hd
    simp only [spec_DeregisterApp_records, List.mem_filter, List.mem_map,
      decide_eq_true_eq] at hd
    obtain ⟨⟨e, -, rfl⟩, hne⟩ := hd
    exact ⟨by simp, hne⟩
  refine ⟨⟨(), spec_DeregisterApp_records l app, spec_DeregisterApp_calls l app⟩,
    deregister_eq l app, rfl, rfl, hmem, ?_⟩
  intro a
  cases hI : IsInterested (spec_DeregisterApp_records l app) a app
  · rfl
  · obtain ⟨d, hd, hm⟩ := mem_of_IsInterested _ a app hI
    exact absurd hm (hmem d hd).1

theorem deregister_sweep_witness :
    gatt_deregister_bgdev_list [⟨{3}, 10⟩, ⟨{3, 4}, 11⟩, ⟨{5}, 12⟩, ⟨{3}, 13⟩] 3
      = some ⟨(), [⟨{4}, 11⟩, ⟨{5}, 12⟩],
          [BtmCall.WhiteListRemove 10, BtmCall.WhiteListRemove 13]⟩ ∧
    ∃ o, gatt_deregister_bgdev_list [⟨{3}, 10⟩, ⟨{3, 4}, 11⟩, ⟨{5}, 12⟩, ⟨{3}, 13⟩] 3 = some o ∧
      o.bgconn_dev
        = spec_DeregisterApp_records [⟨{3}, 10⟩, ⟨{3, 4}, 11⟩, ⟨{5}, 12⟩, ⟨{3}, 13⟩] 3 ∧
      o.calls = spec_DeregisterApp_calls [⟨{3}, 10⟩, ⟨{3, 4}, 11⟩, ⟨{5}, 12⟩, ⟨{3}, 13⟩] 3 ∧
      (∀ d ∈ o.bgconn_dev, 3 ∉ d.gatt_if ∧ d.gatt_if ≠ ∅) ∧
      (∀ a, IsInterested o.bgconn_dev a 3 = false) :=
  ⟨by decide, deregister_sweep [⟨{3}, 10⟩, ⟨{3, 4}, 11⟩, ⟨{5}, 12⟩, ⟨{3}, 13⟩] 3⟩

/-! ## The controller filter follows the list -/

theorem applyCalls_removes (filter : Finset RawAddress) (as : List RawAddress) :
    applyCalls filter (as.map BtmCall.WhiteListRemove) = filter \ as.toFinset := by
  induction as generalizing filter with
  | nil => simp [applyCalls]
  | cons x xs ih =>
    have h := ih (filter.erase x)
    simp only [applyCalls, List.map_cons, List.foldl_cons, applyCall] at h ⊢
    rw [h]
    ext y
    simp only [Finset.mem_sdiff, Finset.mem_erase, List.toFinset_cons, Finset.mem_insert,
      List.mem_toFinset]
    tauto

theorem addresses_spec_records (l : List tGATT_BG_CONN_DEV) (app : tGATT_IF) :
    addresses (spec_DeregisterApp_records l app)
      = addresses (l.filter (fun d => decide (d.gatt_if.erase app ≠ ∅))) := by
  induction l with
  | nil => rfl
  | cons x xs ih =>
    by_cases hx : x.gatt_if.erase app = ∅ <;>
      simpa [spec_DeregisterApp_records, addresses, List.filter_cons, hx] using ih

theorem spec_calls_eq (l : List tGATT_BG_CONN_DEV) (app : tGATT_IF) :
    spec_DeregisterApp_calls l app
      = (addresses (l.filter (fun d => decide (d.gatt_if.erase app = ∅)))).map
          BtmCall.WhiteListRemove := by
  induction l with
  | nil => rfl
  | cons x xs ih =>
    by_cases hx : x.gatt_if.erase app = ∅ <;>
      simpa [spec_DeregisterApp_calls, addresses, List.filter_cons, hx] using ih

theorem sync_after_erase (P Q : List RawAddress) (a : RawAddress)
    (hn : (P ++ a :: Q).Nodup) :
    (P ++ Q).Nodup ∧ ((P ++ a :: Q).toFinset).erase a = (P ++ Q).toFinset := by
  rw [List.nodup_middle, List.nodup_cons] at hn
  refine ⟨hn.2, ?_⟩
  have ha : a ∉ (P ++ Q).toFinset := by simpa using hn.1
  have : (P ++ a :: Q).toFinset = insert a (P ++ Q).toFinset := by
    ext x; simp
  rw [this, Finset.erase_insert ha]

theorem sync_after_deregister (l : List tGATT_BG_CONN_DEV) (app : tGATT_IF)
    (hn : (addresses l).Nodup) :
    (addresses (spec_DeregisterApp_records l app)).Nodup ∧
    applyCalls (addresses l).toFinset (spec_DeregisterApp_calls l app)
      = (addresses (spec_DeregisterApp_records l app)).toFinset := by
  rw [addresses_spec_records, spec_calls_eq, applyCalls_removes]
  constructor
  · exact List.Nodup.sublist ((List.filter_sublist l).map _) hn
  · have hinj := List.inj_on_of_nodup_map hn
    ext x
    simp only [addresses, Finset.mem_sdiff, List.mem_toFinset, List.mem_map, List.mem_filter,
      decide_eq_true_eq]
    constructor
    · rintro ⟨⟨d, hd, rfl⟩, hno⟩
      refine ⟨d, ⟨hd, fun he => hno ⟨d, ⟨hd, he⟩, rfl⟩⟩, rfl⟩
    · rintro ⟨d, ⟨hd, hne⟩, rfl⟩
      refine ⟨⟨d, hd, rfl⟩, ?_⟩
      rintro ⟨e, ⟨he, hee⟩, hda⟩
      have := hinj he hd hda
      subst this
      exact hne hee

/-- C1: from a list whose addresses are pairwise distinct and a controller filter
equal to the set of its addresses, each of `gatt_add_bg_dev_list` (whatever
`BTM_WhiteListAdd` answers), `gatt_remove_bg_dev_from_list`,
`gatt_deregister_bgdev_list`, `gatt_clear_bg_dev_for_addr` and
`gatt_reset_bgdev_list(false)` leaves a list whose addresses are pairwise distinct
and, once its controller calls are applied, a filter equal to the set of the
addresses of that list. -/
theorem filter_sync (filter : Finset RawAddress) (l : List tGATT_BG_CONN_DEV)
    (hn : (addresses l).Nodup) (hf : filter = (addresses l).toFinset) :
    (∀ (wl : RawAddress → Bool) (p_reg : tGATT_REG) (a : RawAddress),
      (addresses (gatt_add_bg_dev_list wl l p_reg a).bgconn_dev).Nodup ∧
      applyCalls filter (gatt_add_bg_dev_list wl l p_reg a).calls
        = (addresses (gatt_add_bg_dev_list wl l p_reg a).bgconn_dev).toFinset) ∧
    (∀ (p_reg : tGATT_REG) (a : RawAddress),
      (addresses (gatt_remove_bg_dev_from_list l p_reg a).bgconn_dev).Nodup ∧
      applyCalls filter (gatt_remove_bg_dev_from_list l p_reg a).calls
        = (addresses (gatt_remove_bg_dev_from_list l p_reg a).bgconn_dev).toFinset) ∧
    (∀ (app : tGATT_IF), ∃ o, gatt_deregister_bgdev_list l app = some o ∧
      (addresses o.bgconn_dev).Nodup ∧
      applyCalls filter o.calls = (addresses o.bgconn_dev).toFinset) ∧
    (∀ (a : RawAddress),
      (addresses (gatt_clear_bg_dev_for_addr l a).bgconn_dev).Nodup ∧
      applyCalls filter (gatt_clear_bg_dev_for_addr l a).calls
        = (addresses (gatt_clear_bg_dev_for_addr l a).bgconn_dev).toFinset) ∧
    ((addresses (gatt_reset_bgdev_list l false).bgconn_dev).Nodup ∧
      applyCalls filter (gatt_reset_bgdev_list l false).calls
        = (addresses (gatt_reset_bgdev_list l false).bgconn_dev).toFinset) := by
  subst hf
  refine ⟨?_, ?_, ?_, ?_, ?_⟩
  · intro wl p_reg a
    rcases absent_or_split a l with habs | ⟨pre, d, post, rfl, hpre, hd⟩
    · rw [add_of_absent wl l p_reg a habs]
      have ha : a ∉ addresses l := by
        simp only [addresses, List.mem_map, not_exists, not_and]
        exact fun d hd => habs d hd
      cases hw : wl a
      · simpa [applyCalls, applyCall] using hn
      · simp only [if_true, addresses, List.map_append, List.map_cons, List.map_nil,
          applyCalls, List.foldl_cons, List.foldl_nil, applyCall]
        refine ⟨?_, ?_⟩
        · rw [List.nodup_append]
          refine ⟨hn, by simp, ?_⟩
          simp only [List.disjoint_singleton]
          exact ha
        · ext x
          simp [or_comm]
    · rw [add_at_split wl pre post d p_reg a hpre hd]
      have hsame : addresses (pre ++ ⟨insert p_reg.gatt_if d.gatt_if, a⟩ :: post)
          = addresses (pre ++ d :: post) := by simp [addresses, hd]
      simp only [hsame, applyCalls, List.foldl_nil]
      exact ⟨hn, trivial⟩
  · intro p_reg a
    rcases absent_or_split a l with habs | ⟨pre, d, post, rfl, hpre, hd⟩
    · rw [remove_of_absent l p_reg a habs]
      exact ⟨hn, rfl⟩
    · rw [remove_at_split pre post d p_reg a hpre hd]
      by_cases hm : p_reg.gatt_if ∈ d.gatt_if
      · by_cases he : d.gatt_if.erase p_reg.gatt_if = ∅
        · have hs := sync_after_erase (addresses pre) (addresses post) a
            (by simpa [addresses, hd] using hn)
          simp only [hm, he, not_true_eq_false, if_false, ne_eq]
          simpa [addresses, applyCalls, applyCall, hd] using hs
        · have hsame : addresses (pre ++ ⟨d.gatt_if.erase p_reg.gatt_if, a⟩ :: post)
              = addresses (pre ++ d :: post) := by simp [addresses, hd]
          simp only [hm, he, not_true_eq_false, if_false, ne_eq, not_false_eq_true, if_true,
            hsame, applyCalls, List.foldl_nil]
          exact ⟨hn, trivial⟩
      · rw [if_pos hm]
        exact ⟨hn, rfl⟩
  · intro app
    refine ⟨_, deregister_eq l app, ?_⟩
    exact sync_after_deregister l app hn
  · intro a
    rcases absent_or_split a l with habs | ⟨pre, d, post, rfl, hpre, hd⟩
    · rw [clear_of_absent l a habs]
      exact ⟨hn, rfl⟩
    · rw [clear_at_split pre post d a hpre hd]
      have hs := sync_after_erase (addresses pre) (addresses post) a
        (by simpa [addresses, hd] using hn)
      simpa [addresses, applyCalls, applyCall, hd] using hs
  · simp [gatt_reset_bgdev_list, addresses, applyCalls, applyCall]

theorem filter_sync_witness :
    (addresses [⟨{1}, 10⟩, ⟨{1, 2}, 20⟩]).Nodup ∧
    ({10, 20} : Finset RawAddress) = (addresses [⟨{1}, 10⟩, ⟨{1, 2}, 20⟩]).toFinset ∧
    ((addresses (gatt_remove_bg_dev_from_list [⟨{1}, 10⟩, ⟨{1, 2}, 20⟩] ⟨1⟩ 10).bgconn_dev).Nodup ∧
     applyCalls {10, 20} (gatt_remove_bg_dev_from_list [⟨{1}, 10⟩, ⟨{1, 2}, 20⟩] ⟨1⟩ 10).calls
       = (addresses
           (gatt_remove_bg_dev_from_list [⟨{1}, 10⟩, ⟨{1, 2}, 20⟩] ⟨1⟩ 10).bgconn_dev).toFinset) :=
  ⟨by decide, by decide,
   (filter_sync {10, 20} [⟨{1}, 10⟩, ⟨{1, 2}, 20⟩] (by decide) (by decide)).2.1 ⟨1⟩ 10⟩

/-! ## DeregisterApp against repeated RemoveInterest -/

theorem removeEach_eq (app : tGATT_IF) (rest : List tGATT_BG_CONN_DEV) :
    ∀ (pre : List tGATT_BG_CONN_DEV) (calls : List BtmCall),
      (addresses (pre ++ rest)).Nodup → (∀ d ∈ rest, d.gatt_if ≠ ∅) →
      removeEach ⟨app⟩ (addresses rest) (pre ++ rest) calls
        = (pre ++ spec_DeregisterApp_records rest app,
            calls ++ spec_DeregisterApp_calls rest app) := by
  induction rest with
  | nil =>
    intro pre calls _ _
    simp [removeEach, addresses, spec_DeregisterApp_records, spec_DeregisterApp_calls]
  | cons d ds ih =>
    intro pre calls hn hne
    have hmid : (addresses pre ++ d.remote_bda :: addresses ds).Nodup := by
      simpa [addresses] using hn
    have hpre : ∀ e ∈ pre, e.remote_bda ≠ d.remote_bda := by
      intro e he heq
      rw [List.nodup_middle, List.nodup_cons] at hmid
      apply hmid.1
      rw [List.mem_append]
      left
      rw [← heq]
      exact List.mem_map_of_mem _ he
    have hds : ∀ e ∈ ds, e.gatt_if ≠ ∅ := fun e he => hne e (List.mem_cons_of_mem _ he)
    have hd : d.gatt_if ≠ ∅ := hne d (List.mem_cons_self _ _)
    have hstep : removeEach ⟨app⟩ (addresses (d :: ds)) (pre ++ d :: ds) calls
        = removeEach ⟨app⟩ (addresses ds)
            (gatt_remove_bg_dev_from_list (pre ++ d :: ds) ⟨app⟩ d.remote_bda).bgconn_dev
            (calls ++ (gatt_remove_bg_dev_from_list (pre ++ d :: ds) ⟨app⟩ d.remote_bda).calls) := by
      simp [addresses, removeEach]
    rw [hstep, remove_at_split pre ds d ⟨app⟩ d.remote_bda hpre rfl]
    by_cases hm : app ∈ d.gatt_if
    · by_cases he : d.gatt_if.erase app = ∅
      · have hn2 : (addresses (pre ++ ds)).Nodup := by
          have := (sync_after_erase (addresses pre) (addresses ds) d.remote_bda hmid).1
          simpa [addresses] using this
        have h := ih pre (calls ++ [BtmCall.WhiteListRemove d.remote_bda]) hn2 hds
        simp only [hm, he, not_true_eq_false, if_false, ne_eq]
        rw [h]
        simp [spec_DeregisterApp_records, spec_DeregisterApp_calls, he]
      · have hn2 : (addresses ((pre ++ [⟨d.gatt_if.erase app, d.remote_bda⟩]) ++ ds)).Nodup := by
          simpa [addresses] using hn
        have h := ih (pre ++ [⟨d.gatt_if.erase app, d.remote_bda⟩]) calls hn2 hds
        simp only [List.append_assoc, List.singleton_append] at h
        simp only [hm, he, not_true_eq_false, if_false, ne_eq, not_false_eq_true, if_true,
          List.append_nil]
        rw [h]
        simp [spec_DeregisterApp_records, spec_DeregisterApp_calls, he]
    · have hee : d.gatt_if.erase app = d.gatt_if := Finset.erase_eq_of_not_mem hm
      have hn2 : (addresses ((pre ++ [d]) ++ ds)).Nodup := by
        simpa [addresses] using hn
      have h := ih (pre ++ [d]) calls hn2 hds
      simp only [List.append_assoc, List.singleton_append] at h
      simp only [hm, not_false_eq_true, if_true, List.append_nil]
      rw [h]
      simp [spec_DeregisterApp_records, spec_DeregisterApp_calls, hee, hd]

/-- C10: on a list with pairwise distinct addresses and no empty interest set,
`gatt_deregister_bgdev_list` ends with the same list and the same sequence of
controller calls as `gatt_remove_bg_dev_from_list` called for the application once
for each address of the original list, in list order. -/
theorem deregister_is_bulk_remove (l : List tGATT_BG_CONN_DEV) (app : tGATT_IF)
    (hn : (addresses l).Nodup) (hne : ∀ d ∈ l, d.gatt_if ≠ ∅) :
    gatt_deregister_bgdev_list l app
      = some ⟨(), (removeEach ⟨app⟩ (addresses l) l []).1,
          (removeEach ⟨app⟩ (addresses l) l []).2⟩ := by
  have h := removeEach_eq app l [] [] (by simpa using hn) hne
  simp only [List.nil_append] at h
  rw [h, deregister_eq]

theorem deregister_is_bulk_remove_witness :
    (addresses [⟨{3}, 10⟩, ⟨{3, 4}, 11⟩, ⟨{5}, 12⟩, ⟨{3}, 13⟩]).Nodup ∧
    (∀ d ∈ [(⟨{3}, 10⟩ : tGATT_BG_CONN_DEV), ⟨{3, 4}, 11⟩, ⟨{5}, 12⟩, ⟨{3}, 13⟩],
      d.gatt_if ≠ ∅) ∧
    gatt_deregister_bgdev_list [⟨{3}, 10⟩, ⟨{3, 4}, 11⟩, ⟨{5}, 12⟩, ⟨{3}, 13⟩] 3
      = some ⟨(),
          (removeEach ⟨3⟩ (addresses [⟨{3}, 10⟩, ⟨{3, 4}, 11⟩, ⟨{5}, 12⟩, ⟨{3}, 13⟩])
            [⟨{3}, 10⟩, ⟨{3, 4}, 11⟩, ⟨{5}, 12⟩, ⟨{3}, 13⟩] []).1,
          (removeEach ⟨3⟩ (addresses [⟨{3}, 10⟩, ⟨{3, 4}, 11⟩, ⟨{5}, 12⟩, ⟨{3}, 13⟩])
            [⟨{3}, 10⟩, ⟨{3, 4}, 11⟩, ⟨{5}, 12⟩, ⟨{3}, 13⟩] []).2⟩ :=
  ⟨by decide, by decide,
   deregister_is_bulk_remove [⟨{3}, 10⟩, ⟨{3, 4}, 11⟩, ⟨{5}, 12⟩, ⟨{3}, 13⟩] 3
     (by decide) (by decide)⟩

/-! ## Reset: `gatt_reset_bgdev_list` -/

/-- C11: `gatt_reset_bgdev_list` leaves an empty list whatever the list and the flag
were; it calls `BTM_WhiteListClear` once when `after_reset` is false and not at all
when it is true, and never calls `BTM_WhiteListAdd` or `BTM_WhiteListRemove`. -/
theorem reset_semantics (l : List tGATT_BG_CONN_DEV) (after_reset : Bool) :
    (gatt_reset_bgdev_list l after_reset).bgconn_dev = [] ∧
    (gatt_reset_bgdev_list l after_reset).calls
      = (if after_reset = true then [] else [BtmCall.WhiteListClear]) ∧
    (gatt_reset_bgdev_list l after_reset).calls.count BtmCall.WhiteListClear
      = (if after_reset = true then 0 else 1) ∧
    (∀ a ok, BtmCall.WhiteListAdd a ok ∉ (gatt_reset_bgdev_list l after_reset).calls) ∧
    (∀ a, BtmCall.WhiteListRemove a ∉ (gatt_reset_bgdev_list l after_reset).calls) := by
  cases after_reset <;> simp [gatt_reset_bgdev_list]

theorem reset_semantics_witness :
    (gatt_reset_bgdev_list [⟨{1}, 10⟩, ⟨{1, 2}, 20⟩] false).bgconn_dev = [] ∧
    (gatt_reset_bgdev_list [⟨{1}, 10⟩, ⟨{1, 2}, 20⟩] false).calls
      = (if false = true then [] else [BtmCall.WhiteListClear]) ∧
    (gatt_reset_bgdev_list [⟨{1}, 10⟩, ⟨{1, 2}, 20⟩] false).calls.count BtmCall.WhiteListClear
      = (if false = true then 0 else 1) ∧
    (∀ a ok, BtmCall.WhiteListAdd a ok ∉
      (gatt_reset_bgdev_list [⟨{1}, 10⟩, ⟨{1, 2}, 20⟩] false).calls) ∧
    (∀ a, BtmCall.WhiteListRemove a ∉
      (gatt_reset_bgdev_list [⟨{1}, 10⟩, ⟨{1, 2}, 20⟩] false).calls) :=
  reset_semantics [⟨{1}, 10⟩, ⟨{1, 2}, 20⟩] false

/-! ## Removing a device: `gatt_clear_bg_dev_for_addr` -/

/-- C15: on a list with pairwise distinct addresses, `gatt_clear_bg_dev_for_addr`
returns true exactly when the list has a record for the address; it then calls
`BTM_WhiteListRemove` once, for that address, and deletes that record whatever its
interest set, so that no record for the address remains and the records before
and after it are untouched; when it returns false the list is unchanged and no
controller call was made. -/
theorem clear_for_addr (l : List tGATT_BG_CONN_DEV) (a : RawAddress)
    (hn : (addresses l).Nodup) :
    ((gatt_clear_bg_dev_for_addr l a).ret = true ↔ ∃ d ∈ l, d.remote_bda = a) ∧
    ((gatt_clear_bg_dev_for_addr l a).ret = true →
      (gatt_clear_bg_dev_for_addr l a).calls = [BtmCall.WhiteListRemove a] ∧
      (∀ d ∈ (gatt_clear_bg_dev_for_addr l a).bgconn_dev, d.remote_bda ≠ a) ∧
      ∃ pre d post, l = pre ++ d :: post ∧ d.remote_bda = a ∧
        (gatt_clear_bg_dev_for_addr l a).bgconn_dev = pre ++ post) ∧
    ((gatt_clear_bg_dev_for_addr l a).ret = false →
      (gatt_clear_bg_dev_for_addr l a).bgconn_dev = l ∧
      (gatt_clear_bg_dev_for_addr l a).calls = []) := by
  rcases absent_or_split a l with habs | ⟨pre, d, post, rfl, hpre, hd⟩
  · rw [clear_of_absent l a habs]
    refine ⟨⟨fun h => by simp at h, fun ⟨d, hd, hda⟩ => absurd hda (habs d hd)⟩,
      fun h => by simp at h, fun _ => ⟨rfl, rfl⟩⟩
  · rw [clear_at_split pre post d a hpre hd]
    have hmid : (addresses pre ++ a :: addresses post).Nodup := by
      simpa [addresses, hd] using hn
    rw [List.nodup_middle, List.nodup_cons] at hmid
    refine ⟨⟨fun _ => ⟨d, by simp, hd⟩, fun _ => rfl⟩, fun _ => ⟨rfl, ?_, pre, d, post, rfl, hd, rfl⟩,
      fun h => by simp at h⟩
    intro e he heq
    apply hmid.1
    have hmem : e.remote_bda ∈ addresses (pre ++ post) := List.mem_map_of_mem _ he
    rw [← heq]
    simpa [addresses] using hmem

theorem clear_for_addr_witness :
    (addresses [⟨{1}, 10⟩, ⟨{1, 2}, 20⟩, ⟨{3}, 30⟩]).Nodup ∧
    (gatt_clear_bg_dev_for_addr [⟨{1}, 10⟩, ⟨{1, 2}, 20⟩, ⟨{3}, 30⟩] 20).ret = true ∧
    (gatt_clear_bg_dev_for_addr [⟨{1}, 10⟩, ⟨{1, 2}, 20⟩, ⟨{3}, 30⟩] 20).calls
      = [BtmCall.WhiteListRemove 20] ∧
    (∀ d ∈ (gatt_clear_bg_dev_for_addr [⟨{1}, 10⟩, ⟨{1, 2}, 20⟩, ⟨{3}, 30⟩] 20).bgconn_dev,
      d.remote_bda ≠ 20) :=
  ⟨by decide, by decide,
   ((clear_for_addr [⟨{1}, 10⟩, ⟨{1, 2}, 20⟩, ⟨{3}, 30⟩] 20 (by decide)).2.1 (by decide)).1,
   ((clear_for_addr [⟨{1}, 10⟩, ⟨{1, 2}, 20⟩, ⟨{3}, 30⟩] 20 (by decide)).2.1 (by decide)).2.1⟩

/-! ## Lookup: `gatt_find_bg_dev` and `gatt_find_bg_dev_it` -/

/-- C20: `gatt_find_bg_dev` and `gatt_find_bg_dev_it`, which only read the list,
report not-found (`nullptr`, `end()`) exactly when no record has the address, and
otherwise both designate the first record in list order with that address. -/
theorem record_lookup (l : List tGATT_BG_CONN_DEV) (a : RawAddress) :
    (gatt_find_bg_dev a l = none ↔ ∀ d ∈ l, d.remote_bda ≠ a) ∧
    (gatt_find_bg_dev_it a l = l.length ↔ ∀ d ∈ l, d.remote_bda ≠ a) ∧
    (∀ pre d post, l = pre ++ d :: post → (∀ e ∈ pre, e.remote_bda ≠ a) → d.remote_bda = a →
      gatt_find_bg_dev a l = some pre.length ∧ gatt_find_bg_dev_it a l = pre.length ∧
      l[pre.length]? = some d) ∧
    (∀ i, gatt_find_bg_dev a l = some i ↔ (gatt_find_bg_dev_it a l = i ∧ i < l.length)) := by
  rcases absent_or_split a l with habs | ⟨pre, d, post, rfl, hpre, hd⟩
  · have h1 := find_of_absent a l habs
    have h2 := find_it_of_absent a l habs
    refine ⟨⟨fun _ => habs, fun _ => h1⟩, ⟨fun _ => habs, fun _ => h2⟩, ?_, ?_⟩
    · intro pre d post hl _ hd
      subst hl
      exact absurd hd (habs d (by simp))
    · intro i
      rw [h1, h2]
      constructor
      · intro h
        simp at h
      · rintro ⟨rfl, h⟩
        exact absurd h (lt_irrefl _)
  · have h1 := find_at_split a pre post d hpre hd
    have h2 := find_it_at_split a pre post d hpre hd
    have hno : ¬ ∀ e ∈ pre ++ d :: post, e.remote_bda ≠ a := fun hall => hall d (by simp) hd
    refine ⟨⟨fun h => ?_, fun h => absurd h hno⟩, ⟨fun h => ?_, fun h => absurd h hno⟩, ?_, ?_⟩
    · rw [h1] at h
      simp at h
    · rw [h2] at h
      simp at h
    · intro pre2 d2 post2 hl hpre2 hd2
      obtain ⟨hp, hdd, -⟩ := split_unique a pre pre2 post post2 d d2 hl hpre hd hpre2 hd2
      rw [← hp, ← hdd]
      exact ⟨h1, h2, getElem?_at_split pre post d⟩
    · intro i
      rw [h1, h2]
      constructor
      · intro h
        have hi : pre.length = i := by simpa using h
        subst hi
        exact ⟨rfl, by simp⟩
      · rintro ⟨rfl, -⟩
        rfl

theorem record_lookup_witness :
    gatt_find_bg_dev 20 [⟨{1}, 10⟩, ⟨{1, 2}, 20⟩, ⟨{3}, 20⟩] = some 1 ∧
    gatt_find_bg_dev_it 20 [⟨{1}, 10⟩, ⟨{1, 2}, 20⟩, ⟨{3}, 20⟩] = 1 ∧
    [(⟨{1}, 10⟩ : tGATT_BG_CONN_DEV), ⟨{1, 2}, 20⟩, ⟨{3}, 20⟩][1]? = some ⟨{1, 2}, 20⟩ :=
  (record_lookup [⟨{1}, 10⟩, ⟨{1, 2}, 20⟩, ⟨{3}, 20⟩] 20).2.2.1
    [⟨{1}, 10⟩] ⟨{1, 2}, 20⟩ [⟨{3}, 20⟩] rfl (by decide) rfl

/-! ## AddInterest followed by RemoveInterest -/

theorem IsInterested_at_split (pre post : List tGATT_BG_CONN_DEV) (d : tGATT_BG_CONN_DEV)
    (a : RawAddress) (app : tGATT_IF) (hpre : ∀ e ∈ pre, e.remote_bda ≠ a)
    (hd : d.remote_bda = a) :
    IsInterested (pre ++ d :: post) a app = decide (app ∈ d.gatt_if) := by
  simp only [IsInterested, find_at_split a pre post d hpre hd, getElem?_at_split,
    gatt_is_bg_dev_for_app, unordered_set_count]
  by_cases hm : app ∈ d.gatt_if <;> simp [hm]

/-- C18: on a list without empty interest sets, when the application is not yet
interested in the address and `gatt_add_bg_dev_list` returns true, an immediate
`gatt_remove_bg_dev_from_list` for the same application and address returns true
and leaves exactly the list there was before the add. -/
theorem add_remove_round_trip (wl : RawAddress → Bool) (l : List tGATT_BG_CONN_DEV)
    (app : tGATT_IF) (a : RawAddress) (hne : ∀ d ∈ l, d.gatt_if ≠ ∅)
    (hnot : IsInterested l a app = false)
    (hret : (gatt_add_bg_dev_list wl l ⟨app⟩ a).ret = true) :
    (gatt_remove_bg_dev_from_list (gatt_add_bg_dev_list wl l ⟨app⟩ a).bgconn_dev ⟨app⟩ a).ret
      = true ∧
    (gatt_remove_bg_dev_from_list (gatt_add_bg_dev_list wl l ⟨app⟩ a).bgconn_dev ⟨app⟩ a).bgconn_dev
      = l := by
  rcases absent_or_split a l with habs | ⟨pre, d, post, rfl, hpre, hd⟩
  · have e := add_of_absent wl l ⟨app⟩ a habs
    cases hw : wl a
    · simp [e, hw] at hret
    · simp only [hw, if_true] at e
      rw [e]
      have hr := remove_at_split l [] ⟨{app}, a⟩ ⟨app⟩ a habs rfl
      simp only [Finset.mem_singleton, not_true_eq_false, if_false, Finset.erase_singleton,
        ne_eq, List.append_nil] at hr
      rw [hr]
      exact ⟨rfl, rfl⟩
  · have hm : app ∉ d.gatt_if := by
      rw [IsInterested_at_split pre post d a app hpre hd] at hnot
      simpa using hnot
    have hd0 : d.gatt_if ≠ ∅ := hne d (by simp)
    rw [add_at_split wl pre post d ⟨app⟩ a hpre hd]
    have hr := remove_at_split pre post ⟨insert app d.gatt_if, a⟩ ⟨app⟩ a hpre rfl
    simp only [Finset.mem_insert, true_or, not_true_eq_false, if_false,
      Finset.erase_insert hm, ne_eq, hd0, not_false_eq_true, if_true] at hr
    rw [hr]
    refine ⟨rfl, ?_⟩
    cases d
    simp only at hd
    simp [hd]

theorem add_remove_round_trip_witness :
    (∀ d ∈ [(⟨{1}, 10⟩ : tGATT_BG_CONN_DEV), ⟨{1, 2}, 20⟩], d.gatt_if ≠ ∅) ∧
    IsInterested [⟨{1}, 10⟩, ⟨{1, 2}, 20⟩] 20 3 = false ∧
    (gatt_add_bg_dev_list (fun _ => false) [⟨{1}, 10⟩, ⟨{1, 2}, 20⟩] ⟨3⟩ 20).ret = true ∧
    (gatt_remove_bg_dev_from_list
        (gatt_add_bg_dev_list (fun _ => false) [⟨{1}, 10⟩, ⟨{1, 2}, 20⟩] ⟨3⟩ 20).bgconn_dev
        ⟨3⟩ 20).ret = true ∧
    (gatt_remove_bg_dev_from_list
        (gatt_add_bg_dev_list (fun _ => false) [⟨{1}, 10⟩, ⟨{1, 2}, 20⟩] ⟨3⟩ 20).bgconn_dev
        ⟨3⟩ 20).bgconn_dev = [⟨{1}, 10⟩, ⟨{1, 2}, 20⟩] :=
  ⟨by decide, by decide, by decide,
   add_remove_round_trip (fun _ => false) [⟨{1}, 10⟩, ⟨{1, 2}, 20⟩] 3 20
     (by decide) (by decide) (by decide)⟩

/-! ## Two deregistrations -/

theorem spec_records_twice (l : List tGATT_BG_CONN_DEV) (x y : tGATT_IF) :
    spec_DeregisterApp_records (spec_DeregisterApp_records l x) y
      = (l.map (fun d =>
            (⟨(d.gatt_if.erase x).erase y, d.remote_bda⟩ : tGATT_BG_CONN_DEV))).filter
          (fun d => decide (d.gatt_if ≠ ∅)) := by
  induction l with
  | nil => rfl
  | cons d ds ih =>
    by_cases hx : d.gatt_if.erase x = ∅
    · simpa [spec_DeregisterApp_records, List.filter_cons, hx] using ih
    · by_cases hy : (d.gatt_if.erase x).erase y = ∅ <;>
        simpa [spec_DeregisterApp_records, List.filter_cons, hx, hy] using ih

theorem spec_calls_twice (l : List tGATT_BG_CONN_DEV) (x y : tGATT_IF) :
    (spec_DeregisterApp_calls l x
        ++ spec_DeregisterApp_calls (spec_DeregisterApp_records l x) y).Perm
      ((l.filter (fun d => decide ((d.gatt_if.erase x).erase y = ∅))).map
        (fun d => BtmCall.WhiteListRemove d.remote_bda)) := by
  induction l with
  | nil => simp [spec_DeregisterApp_calls, spec_DeregisterApp_records]
  | cons d ds ih =>
    by_cases hx : d.gatt_if.erase x = ∅
    · have h := List.Perm.cons (BtmCall.WhiteListRemove d.remote_bda) ih
      simpa [spec_DeregisterApp_calls, spec_DeregisterApp_records, List.filter_cons, hx]
        using h
    · by_cases hy : (d.gatt_if.erase x).erase y = ∅
      · have h := List.Perm.trans List.perm_middle
          (List.Perm.cons (BtmCall.WhiteListRemove d.remote_bda) ih)
        simpa [spec_DeregisterApp_calls, spec_DeregisterApp_records, List.filter_cons, hx, hy]
          using h
      · simpa [spec_DeregisterApp_calls, spec_DeregisterApp_records, List.filter_cons, hx, hy]
          using ih

/-- C19: `gatt_deregister_bgdev_list` for one application and then for another ends
with the same list as the two calls in the other order, and the controller calls
of the two runs, all of them `BTM_WhiteListRemove`, are the same up to order. -/
theorem deregistrations_commute (l : List tGATT_BG_CONN_DEV) (x y : tGATT_IF) :
    ∃ o1 o2 o3 o4,
      gatt_deregister_bgdev_list l x = some o1 ∧
      gatt_deregister_bgdev_list o1.bgconn_dev y = some o2 ∧
      gatt_deregister_bgdev_list l y = some o3 ∧
      gatt_deregister_bgdev_list o3.bgconn_dev x = some o4 ∧
      o2.bgconn_dev = o4.bgconn_dev ∧
      (o1.calls ++ o2.calls).Perm (o3.calls ++ o4.calls) ∧
      (∀ c ∈ o1.calls ++ o2.calls, ∃ a, c = BtmCall.WhiteListRemove a) := by
  refine ⟨_, _, _, _, deregister_eq l x, deregister_eq _ y, deregister_eq l y,
    deregister_eq _ x, ?_, ?_, ?_⟩
  · simp only [spec_records_twice]
    simp only [Finset.erase_right_comm]
  · refine (spec_calls_twice l x y).trans ?_
    refine List.Perm.trans ?_ (spec_calls_twice l y x).symm
    simp only [Finset.erase_right_comm]
    exact List.Perm.refl _
  · intro c hc
    simp only [spec_DeregisterApp_calls, List.mem_append, List.mem_map] at hc
    rcases hc with ⟨d, -, rfl⟩ | ⟨d, -, rfl⟩ <;> exact ⟨_, rfl⟩

theorem deregistrations_commute_witness :
    gatt_deregister_bgdev_list [⟨{3}, 10⟩, ⟨{3, 4}, 11⟩, ⟨{4}, 12⟩, ⟨{5}, 13⟩] 3
      = some ⟨(), [⟨{4}, 11⟩, ⟨{4}, 12⟩, ⟨{5}, 13⟩], [BtmCall.WhiteListRemove 10]⟩ ∧
    gatt_deregister_bgdev_list [⟨{3}, 10⟩, ⟨{3, 4}, 11⟩, ⟨{4}, 12⟩, ⟨{5}, 13⟩] 4
      = some ⟨(), [⟨{3}, 10⟩, ⟨{3}, 11⟩, ⟨{5}, 13⟩], [BtmCall.WhiteListRemove 12]⟩ ∧
    ∃ o1 o2 o3 o4,
      gatt_deregister_bgdev_list [⟨{3}, 10⟩, ⟨{3, 4}, 11⟩, ⟨{4}, 12⟩, ⟨{5}, 13⟩] 3 = some o1 ∧
      gatt_deregister_bgdev_list o1.bgconn_dev 4 = some o2 ∧
      gatt_deregister_bgdev_list [⟨{3}, 10⟩, ⟨{3, 4}, 11⟩, ⟨{4}, 12⟩, ⟨{5}, 13⟩] 4 = some o3 ∧
      gatt_deregister_bgdev_list o3.bgconn_dev 3 = some o4 ∧
      o2.bgconn_dev = o4.bgconn_dev ∧
      (o1.calls ++ o2.calls).Perm (o3.calls ++ o4.calls) ∧
      (∀ c ∈ o1.calls ++ o2.calls, ∃ a, c = BtmCall.WhiteListRemove a) :=
  ⟨by decide, by decide,
   deregistrations_commute [⟨{3}, 10⟩, ⟨{3, 4}, 11⟩, ⟨{4}, 12⟩, ⟨{5}, 13⟩] 3 4⟩

/-! ## Invariants of the list -/

theorem nonempty_add (wl : RawAddress → Bool) (l : List tGATT_BG_CONN_DEV) (p_reg : tGATT_REG)
    (a : RawAddress) (h : ∀ d ∈ l, d.gatt_if ≠ ∅) :
    ∀ d ∈ (gatt_add_bg_dev_list wl l p_reg a).bgconn_dev, d.gatt_if ≠ ∅ := by
  rcases absent_or_split a l with habs | ⟨pre, d, post, rfl, hpre, hd⟩
  · rw [add_of_absent wl l p_reg a habs]
    cases hw : wl a
    · simpa using h
    · intro e he
      simp only [if_true, List.mem_append, List.mem_singleton] at he
      rcases he with he | rfl
      · exact h e he
      · simp
  · rw [add_at_split wl pre post d p_reg a hpre hd]
    intro e he
    simp only [List.mem_append, List.mem_cons] at he
    rcases he with he | rfl | he
    · exact h e (by simp [he])
    · simp
    · exact h e (by simp [he])

theorem nonempty_remove (l : List tGATT_BG_CONN_DEV) (p_reg : tGATT_REG) (a : RawAddress)
    (h : ∀ d ∈ l, d.gatt_if ≠ ∅) :
    ∀ d ∈ (gatt_remove_bg_dev_from_list l p_reg a).bgconn_dev, d.gatt_if ≠ ∅ := by
  rcases absent_or_split a l with habs | ⟨pre, d, post, rfl, hpre, hd⟩
  · rw [remove_of_absent l p_reg a habs]
    exact h
  · rw [remove_at_split pre post d p_reg a hpre hd]
    by_cases hm : p_reg.gatt_if ∈ d.gatt_if
    · by_cases he : d.gatt_if.erase p_reg.gatt_if = ∅
      · rw [if_neg (not_not.mpr hm), if_neg (not_not.mpr he)]
        intro e hmem
        simp only [List.mem_append] at hmem
        rcases hmem with hmem | hmem
        · exact h e (by simp [hmem])
        · exact h e (by simp [hmem])
      · rw [if_neg (not_not.mpr hm), if_pos he]
        intro e hmem
        simp only [List.mem_append, List.mem_cons] at hmem
        rcases hmem with hmem | rfl | hmem
        · exact h e (by simp [hmem])
        · exact he
        · exact h e (by simp [hmem])
    · rw [if_pos hm]
      exact h

theorem nonempty_spec_records (l : List tGATT_BG_CONN_DEV) (app : tGATT_IF) :
    ∀ d ∈ spec_DeregisterApp_records l app, d.gatt_if ≠ ∅ := by
  intro d hd
  simp only [spec_DeregisterApp_records, List.mem_filter, decide_eq_true_eq] at hd
  exact hd.2

theorem nonempty_clear (l : List tGATT_BG_CONN_DEV) (a : RawAddress)
    (h : ∀ d ∈ l, d.gatt_if ≠ ∅) :
    ∀ d ∈ (gatt_clear_bg_dev_for_addr l a).bgconn_dev, d.gatt_if ≠ ∅ := by
  rcases absent_or_split a l with habs | ⟨pre, d, post, rfl, hpre, hd⟩
  · rw [clear_of_absent l a habs]
    exact h
  · rw [clear_at_split pre post d a hpre hd]
    intro e hmem
    simp only [List.mem_append] at hmem
    rcases hmem with hmem | hmem
    · exact h e (by simp [hmem])
    · exact h e (by simp [hmem])

theorem nodup_add (wl : RawAddress → Bool) (l : List tGATT_BG_CONN_DEV) (p_reg : tGATT_REG)
    (a : RawAddress) (hn : (addresses l).Nodup) :
    (addresses (gatt_add_bg_dev_list wl l p_reg a).bgconn_dev).Nodup := by
  rcases absent_or_split a l with habs | ⟨pre, d, post, rfl, hpre, hd⟩
  · rw [add_of_absent wl l p_reg a habs]
    have ha : a ∉ addresses l := by
      simp only [addresses, List.mem_map, not_exists, not_and]
      exact fun d hd => habs d hd
    cases hw : wl a
    · simpa using hn
    · simp only [if_true, addresses, List.map_append, List.map_cons, List.map_nil]
      rw [List.nodup_append]
      refine ⟨hn, by simp, ?_⟩
      simp only [List.disjoint_singleton]
      exact ha
  · rw [add_at_split wl pre post d p_reg a hpre hd]
    simpa [addresses, hd] using hn

theorem nodup_remove (l : List tGATT_BG_CONN_DEV) (p_reg : tGATT_REG) (a : RawAddress)
    (hn : (addresses l).Nodup) :
    (addresses (gatt_remove_bg_dev_from_list l p_reg a).bgconn_dev).Nodup := by
  rcases absent_or_split a l with habs | ⟨pre, d, post, rfl, hpre, hd⟩
  · rw [remove_of_absent l p_reg a habs]
    exact hn
  · rw [remove_at_split pre post d p_reg a hpre hd]
    by_cases hm : p_reg.gatt_if ∈ d.gatt_if
    · by_cases he : d.gatt_if.erase p_reg.gatt_if = ∅
      · rw [if_neg (not_not.mpr hm), if_neg (not_not.mpr he)]
        have hs := sync_after_erase (addresses pre) (addresses post) a
          (by simpa [addresses, hd] using hn)
        simpa [addresses] using hs.1
      · rw [if_neg (not_not.mpr hm), if_pos he]
        simpa [addresses, hd] using hn
    · rw [if_pos hm]
      exact hn

theorem nodup_clear (l : List tGATT_BG_CONN_DEV) (a : RawAddress)
    (hn : (addresses l).Nodup) :
    (addresses (gatt_clear_bg_dev_for_addr l a).bgconn_dev).Nodup := by
  rcases absent_or_split a l with habs | ⟨pre, d, post, rfl, hpre, hd⟩
  · rw [clear_of_absent l a habs]
    exact hn
  · rw [clear_at_split pre post d a hpre hd]
    have hs := sync_after_erase (addresses pre) (addresses post) a
      (by simpa [addresses, hd] using hn)
    simpa [addresses] using hs.1

theorem performInterest_deregister (l : List tGATT_BG_CONN_DEV) (app : tGATT_IF) :
    performInterest l (InterestCall.DeregisterApp app)
      = some ⟨true, spec_DeregisterApp_records l app, spec_DeregisterApp_calls l app⟩ := by
  simp [performInterest, deregister_eq]

/-- Every operation ends: `perform` always yields an outcome. -/
theorem perform_isSome (l : List tGATT_BG_CONN_DEV) (op : Operation) :
    ∃ o, perform l op = some o := by
  cases op with
  | interest call =>
    cases call with
    | AddInterest app a ans => exact ⟨_, rfl⟩
    | RemoveInterest app a => exact ⟨_, rfl⟩
    | DeregisterApp app => exact ⟨_, performInterest_deregister l app⟩
  | ClearAddress a => exact ⟨_, rfl⟩
  | Reset b => exact ⟨_, rfl⟩

theorem nonempty_perform (l : List tGATT_BG_CONN_DEV) (op : Operation) (o : Outcome Bool)
    (h : ∀ d ∈ l, d.gatt_if ≠ ∅) (ho : perform l op = some o) :
    ∀ d ∈ o.bgconn_dev, d.gatt_if ≠ ∅ := by
  cases op with
  | interest call =>
    cases call with
    | AddInterest app a ans =>
      simp only [perform, performInterest, Option.some.injEq] at ho
      subst ho
      exact nonempty_add _ l ⟨app⟩ a h
    | RemoveInterest app a =>
      simp only [perform, performInterest, Option.some.injEq] at ho
      subst ho
      exact nonempty_remove l ⟨app⟩ a h
    | DeregisterApp app =>
      simp only [perform, performInterest_deregister, Option.some.injEq] at ho
      subst ho
      exact nonempty_spec_records l app
  | ClearAddress a =>
    simp only [perform, Option.some.injEq] at ho
    subst ho
    exact nonempty_clear l a h
  | Reset b =>
    simp only [perform, Option.some.injEq] at ho
    subst ho
    simp [gatt_reset_bgdev_list]

theorem nodup_perform (l : List tGATT_BG_CONN_DEV) (op : Operation) (o : Outcome Bool)
    (h : (addresses l).Nodup) (ho : perform l op = some o) :
    (addresses o.bgconn_dev).Nodup := by
  cases op with
  | interest call =>
    cases call with
    | AddInterest app a ans =>
      simp only [perform, performInterest, Option.some.injEq] at ho
      subst ho
      exact nodup_add _ l ⟨app⟩ a h
    | RemoveInterest app a =>
      simp only [perform, performInterest, Option.some.injEq] at ho
      subst ho
      exact nodup_remove l ⟨app⟩ a h
    | DeregisterApp app =>
      simp only [perform, performInterest_deregister, Option.some.injEq] at ho
      subst ho
      exact (sync_after_deregister l app h).1
  | ClearAddress a =>
    simp only [perform, Option.some.injEq] at ho
    subst ho
    exact nodup_clear l a h
  | Reset b =>
    simp only [perform, Option.some.injEq] at ho
    subst ho
    simp [gatt_reset_bgdev_list, addresses]

theorem applyOperations_snoc (ops : List Operation) (op : Operation)
    (l : List tGATT_BG_CONN_DEV) :
    applyOperations (ops ++ [op]) l
      = (applyOperations ops l).bind (fun m => (perform m op).map (fun o => o.bgconn_dev)) := by
  simp [applyOperations, List.foldl_append]

/-- A property of the empty list that every operation preserves holds of every
list a sequence of operations leaves. -/
theorem reachable_induction (P : List tGATT_BG_CONN_DEV → Prop) (h0 : P [])
    (hstep : ∀ l op o, P l → perform l op = some o → P o.bgconn_dev) :
    ∀ ops l, applyOperations ops [] = some l → P l := by
  intro ops
  induction ops using List.reverseRecOn with
  | nil =>
    intro l hl
    simp only [applyOperations, List.foldl_nil, Option.some.injEq] at hl
    rw [← hl]
    exact h0
  | append_singleton ops op ih =>
    intro l hl
    rw [applyOperations_snoc] at hl
    cases hm : applyOperations ops [] with
    | none => simp [hm] at hl
    | some m =>
      rw [hm] at hl
      simp only [Option.some_bind, Option.map_eq_some'] at hl
      obtain ⟨o, ho, rfl⟩ := hl
      exact hstep m op o (ih m hm) ho

/-- Every sequence of operations ends with a list. -/
theorem applyOperations_isSome (ops : List Operation) :
    ∃ l, applyOperations ops [] = some l := by
  induction ops using List.reverseRecOn with
  | nil => exact ⟨[], rfl⟩
  | append_singleton ops op ih =>
    obtain ⟨m, hm⟩ := ih
    obtain ⟨o, ho⟩ := perform_isSome m op
    exact ⟨o.bgconn_dev, by simp [applyOperations_snoc, hm, ho]⟩

/-- C16: when no record of the list has an empty interest set, none has after
`gatt_add_bg_dev_list` (whatever `BTM_WhiteListAdd` answers),
`gatt_remove_bg_dev_from_list`, `gatt_deregister_bgdev_list`,
`gatt_clear_bg_dev_for_addr` or `gatt_reset_bgdev_list`; every sequence of these
operations from the empty list ends, and the list it leaves has no record with an
empty interest set. -/
theorem no_empty_record_persists (l : List tGATT_BG_CONN_DEV) :
    ((∀ d ∈ l, d.gatt_if ≠ ∅) →
      (∀ (wl : RawAddress → Bool) (p_reg : tGATT_REG) (a : RawAddress),
        ∀ d ∈ (gatt_add_bg_dev_list wl l p_reg a).bgconn_dev, d.gatt_if ≠ ∅) ∧
      (∀ (p_reg : tGATT_REG) (a : RawAddress),
        ∀ d ∈ (gatt_remove_bg_dev_from_list l p_reg a).bgconn_dev, d.gatt_if ≠ ∅) ∧
      (∀ (app : tGATT_IF), ∃ o, gatt_deregister_bgdev_list l app = some o ∧
        ∀ d ∈ o.bgconn_dev, d.gatt_if ≠ ∅) ∧
      (∀ (a : RawAddress),
        ∀ d ∈ (gatt_clear_bg_dev_for_addr l a).bgconn_dev, d.gatt_if ≠ ∅) ∧
      (∀ (after_reset : Bool),
        ∀ d ∈ (gatt_reset_bgdev_list l after_reset).bgconn_dev, d.gatt_if ≠ ∅)) ∧
    (∀ ops : List Operation, (∃ m, applyOperations ops [] = some m) ∧
      (applyOperations ops [] = some l → ∀ d ∈ l, d.gatt_if ≠ ∅)) := by
  refine ⟨fun h => ⟨fun wl p_reg a => nonempty_add wl l p_reg a h,
    fun p_reg a => nonempty_remove l p_reg a h,
    fun app => ⟨_, deregister_eq l app, nonempty_spec_records l app⟩,
    fun a => nonempty_clear l a h, fun b => by simp [gatt_reset_bgdev_list]⟩, ?_⟩
  intro ops
  refine ⟨applyOperations_isSome ops, fun hl => ?_⟩
  exact reachable_induction (fun m => ∀ d ∈ m, d.gatt_if ≠ ∅) (by simp)
    (fun m op o hm ho => nonempty_perform m op o hm ho) ops l hl

theorem no_empty_record_persists_witness :
    (∀ d ∈ [(⟨{1}, 10⟩ : tGATT_BG_CONN_DEV), ⟨{1, 2}, 20⟩], d.gatt_if ≠ ∅) ∧
    (∀ d ∈ (gatt_remove_bg_dev_from_list [⟨{1}, 10⟩, ⟨{1, 2}, 20⟩] ⟨1⟩ 10).bgconn_dev,
      d.gatt_if ≠ ∅) ∧
    applyOperations
      [Operation.interest (InterestCall.AddInterest 1 10 true),
       Operation.interest (InterestCall.AddInterest 2 20 true),
       Operation.interest (InterestCall.AddInterest 1 20 false)] []
      = some [⟨{1}, 10⟩, ⟨{1, 2}, 20⟩] :=
  ⟨by decide,
   ((no_empty_record_persists [⟨{1}, 10⟩, ⟨{1, 2}, 20⟩]).1 (by decide)).2.1 ⟨1⟩ 10,
   by decide⟩

/-- C17: when no two records of the list have the same address, no two have after
`gatt_add_bg_dev_list` (whatever `BTM_WhiteListAdd` answers),
`gatt_remove_bg_dev_from_list`, `gatt_deregister_bgdev_list`,
`gatt_clear_bg_dev_for_addr` or `gatt_reset_bgdev_list`; every sequence of these
operations from the empty list ends, and the list it leaves has at most one
record per address. -/
theorem address_uniqueness (l : List tGATT_BG_CONN_DEV) :
    ((addresses l).Nodup →
      (∀ (wl : RawAddress → Bool) (p_reg : tGATT_REG) (a : RawAddress),
        (addresses (gatt_add_bg_dev_list wl l p_reg a).bgconn_dev).Nodup) ∧
      (∀ (p_reg : tGATT_REG) (a : RawAddress),
        (addresses (gatt_remove_bg_dev_from_list l p_reg a).bgconn_dev).Nodup) ∧
      (∀ (app : tGATT_IF), ∃ o, gatt_deregister_bgdev_list l app = some o ∧
        (addresses o.bgconn_dev).Nodup) ∧
      (∀ (a : RawAddress), (addresses (gatt_clear_bg_dev_for_addr l a).bgconn_dev).Nodup) ∧
      (∀ (after_reset : Bool),
        (addresses (gatt_reset_bgdev_list l after_reset).bgconn_dev).Nodup)) ∧
    (∀ ops : List Operation, (∃ m, applyOperations ops [] = some m) ∧
      (applyOperations ops [] = some l → (addresses l).Nodup)) := by
  refine ⟨fun h => ⟨fun wl p_reg a => nodup_add wl l p_reg a h,
    fun p_reg a => nodup_remove l p_reg a h,
    fun app => ⟨_, deregister_eq l app, (sync_after_deregister l app h).1⟩,
    fun a => nodup_clear l a h, fun b => by simp [gatt_reset_bgdev_list, addresses]⟩, ?_⟩
  intro ops
  refine ⟨applyOperations_isSome ops, fun hl => ?_⟩
  exact reachable_induction (fun m => (addresses m).Nodup) (by simp [addresses])
    (fun m op o hm ho => nodup_perform m op o hm ho) ops l hl

theorem address_uniqueness_witness :
    (addresses [⟨{1}, 10⟩, ⟨{1, 2}, 20⟩]).Nodup ∧
    (addresses (gatt_add_bg_dev_list (fun _ => true) [⟨{1}, 10⟩, ⟨{1, 2}, 20⟩] ⟨3⟩ 30).bgconn_dev).Nodup ∧
    applyOperations
      [Operation.interest (InterestCall.AddInterest 1 10 true),
       Operation.interest (InterestCall.AddInterest 1 20 true),
       Operation.ClearAddress 10,
       Operation.interest (InterestCall.AddInterest 2 10 true)] []
      = some [⟨{1}, 20⟩, ⟨{2}, 10⟩] :=
  ⟨by decide,
   ((address_uniqueness [⟨{1}, 10⟩, ⟨{1, 2}, 20⟩]).1 (by decide)).1 (fun _ => true) ⟨3⟩ 30,
   by decide⟩

/-! ## Runs of interest calls -/

theorem hasInterest_append (xs ys : List tGATT_BG_CONN_DEV) (a : RawAddress) (x : tGATT_IF) :
    HasInterest (xs ++ ys) a x ↔ HasInterest xs a x ∨ HasInterest ys a x := by
  simp only [HasInterest, List.mem_append]
  constructor
  · rintro ⟨d, hd | hd, h⟩
    · exact Or.inl ⟨d, hd, h⟩
    · exact Or.inr ⟨d, hd, h⟩
  · rintro (⟨d, hd, h⟩ | ⟨d, hd, h⟩)
    · exact ⟨d, Or.inl hd, h⟩
    · exact ⟨d, Or.inr hd, h⟩

theorem hasInterest_cons (d : tGATT_BG_CONN_DEV) (ys : List tGATT_BG_CONN_DEV)
    (a : RawAddress) (x : tGATT_IF) :
    HasInterest (d :: ys) a x ↔ (d.remote_bda = a ∧ x ∈ d.gatt_if) ∨ HasInterest ys a x := by
  simp [HasInterest]

theorem not_hasInterest_of_absent (l : List tGATT_BG_CONN_DEV) (a : RawAddress) (x : tGATT_IF)
    (h : ∀ d ∈ l, d.remote_bda ≠ a) : ¬ HasInterest l a x := by
  rintro ⟨d, hd, hda, -⟩
  exact h d hd hda

theorem absent_after_of_nodup (pre post : List tGATT_BG_CONN_DEV) (d : tGATT_BG_CONN_DEV)
    (hn : (addresses (pre ++ d :: post)).Nodup) :
    ∀ e ∈ post, e.remote_bda ≠ d.remote_bda := by
  have hmid : (addresses pre ++ d.remote_bda :: addresses post).Nodup := by
    simpa [addresses] using hn
  rw [List.nodup_middle, List.nodup_cons] at hmid
  intro e he heq
  apply hmid.1
  rw [List.mem_append]
  right
  rw [← heq]
  exact List.mem_map_of_mem _ he

theorem hasInterest_add (wl : RawAddress → Bool) (l : List tGATT_BG_CONN_DEV)
    (app : tGATT_IF) (b a : RawAddress) (x : tGATT_IF) :
    HasInterest (gatt_add_bg_dev_list wl l ⟨app⟩ b).bgconn_dev a x ↔
      (HasInterest l a x ∨
        ((gatt_add_bg_dev_list wl l ⟨app⟩ b).ret = true ∧ b = a ∧ x = app)) := by
  rcases absent_or_split b l with habs | ⟨pre, d, post, rfl, hpre, hd⟩
  · rw [add_of_absent wl l ⟨app⟩ b habs]
    cases hw : wl b
    · simp
    · simp only [if_true, hasInterest_append, hasInterest_cons, Finset.mem_singleton, true_and]
      have : ¬ HasInterest [] a x := by simp [HasInterest]
      tauto
  · rw [add_at_split wl pre post d ⟨app⟩ b hpre hd]
    simp only [hasInterest_append, hasInterest_cons, Finset.mem_insert, true_and, hd]
    tauto

theorem hasInterest_remove (l : List tGATT_BG_CONN_DEV) (app : tGATT_IF) (b a : RawAddress)
    (x : tGATT_IF) (hn : (addresses l).Nodup) :
    HasInterest (gatt_remove_bg_dev_from_list l ⟨app⟩ b).bgconn_dev a x ↔
      (HasInterest l a x ∧ ¬ (b = a ∧ x = app)) := by
  rcases absent_or_split b l with habs | ⟨pre, d, post, rfl, hpre, hd⟩
  · rw [remove_of_absent l ⟨app⟩ b habs]
    have := not_hasInterest_of_absent l b x habs
    constructor
    · intro h
      refine ⟨h, ?_⟩
      rintro ⟨rfl, -⟩
      exact this h
    · exact fun h => h.1
  · have hpost : ∀ e ∈ post, e.remote_bda ≠ b := by
      have := absent_after_of_nodup pre post d hn
      rwa [hd] at this
    have h1 : ∀ y, ¬ HasInterest pre b y := fun y => not_hasInterest_of_absent pre b y hpre
    have h2 : ∀ y, ¬ HasInterest post b y := fun y => not_hasInterest_of_absent post b y hpost
    rw [remove_at_split pre post d ⟨app⟩ b hpre hd]
    by_cases hab : b = a
    · subst hab
      by_cases hm : app ∈ d.gatt_if
      · by_cases he : d.gatt_if.erase app = ∅
        · rw [if_neg (not_not.mpr hm), if_neg (not_not.mpr he)]
          have hx : x ∈ d.gatt_if → x = app := by
            intro hx
            by_contra hne
            have : x ∈ d.gatt_if.erase app := Finset.mem_erase.mpr ⟨hne, hx⟩
            rw [he] at this
            simp at this
          simp only [hasInterest_append, hasInterest_cons, hd, true_and, h1, h2, false_or,
            or_false]
          tauto
        · rw [if_neg (not_not.mpr hm), if_pos he]
          simp only [hasInterest_append, hasInterest_cons, hd, true_and, h1, h2, false_or,
            or_false, Finset.mem_erase]
          tauto
      · rw [if_pos hm]
        simp only [hasInterest_append, hasInterest_cons, hd, true_and, h1, h2, false_or,
          or_false]
        constructor
        · intro hx
          refine ⟨hx, ?_⟩
          rintro rfl
          exact hm hx
        · exact fun h => h.1
    · have hda : ¬ d.remote_bda = a := by rwa [hd]
      by_cases hm : app ∈ d.gatt_if
      · by_cases he : d.gatt_if.erase app = ∅
        · rw [if_neg (not_not.mpr hm), if_neg (not_not.mpr he)]
          simp only [hasInterest_append, hasInterest_cons, hda, hab, false_and, false_or,
            not_false_eq_true, and_true]
        · rw [if_neg (not_not.mpr hm), if_pos he]
          simp only [hasInterest_append, hasInterest_cons, hda, hab, false_and, false_or,
            not_false_eq_true, and_true]
      · rw [if_pos hm]
        simp only [hab, false_and, not_false_eq_true, and_true]

theorem hasInterest_spec_records (l : List tGATT_BG_CONN_DEV) (app : tGATT_IF)
    (a : RawAddress) (x : tGATT_IF) :
    HasInterest (spec_DeregisterApp_records l app) a x ↔ (HasInterest l a x ∧ x ≠ app) := by
  simp only [HasInterest, spec_DeregisterApp_records, List.mem_filter, List.mem_map,
    decide_eq_true_eq]
  constructor
  · rintro ⟨d, ⟨⟨e, he, rfl⟩, -⟩, hda, hx⟩
    simp only [Finset.mem_erase] at hx
    exact ⟨⟨e, he, hda, hx.2⟩, hx.1⟩
  · rintro ⟨⟨e, he, hda, hx⟩, hne⟩
    have hmem : x ∈ e.gatt_if.erase app := Finset.mem_erase.mpr ⟨hne, hx⟩
    refine ⟨⟨e.gatt_if.erase app, e.remote_bda⟩, ⟨⟨e, he, rfl⟩, ?_⟩, hda, hmem⟩
    exact Finset.ne_empty_of_mem hmem

theorem outstanding_snoc (a : RawAddress) (h : List (InterestCall × Bool))
    (e : InterestCall × Bool) :
    outstanding a (h ++ [e]) = noteCall a (outstanding a h) e := by
  simp [outstanding, List.foldl_append]

theorem filterEvents_append (a : RawAddress) (xs ys : List BtmCall) :
    filterEvents a (xs ++ ys) = filterEvents a xs ++ filterEvents a ys := by
  induction xs with
  | nil => rfl
  | cons c cs ih =>
    cases c with
    | WhiteListAdd b ok =>
      by_cases h : b = a ∧ ok = true <;> simp [filterEvents, h, ih]
    | WhiteListRemove b =>
      by_cases h : b = a <;> simp [filterEvents, h, ih]
    | WhiteListClear => simp [filterEvents, ih]

theorem filterEvents_removes (a : RawAddress) (rs : List RawAddress) (hn : rs.Nodup) :
    filterEvents a (rs.map BtmCall.WhiteListRemove) = if a ∈ rs then [false] else [] := by
  induction rs with
  | nil => rfl
  | cons r rs ih =>
    rw [List.nodup_cons] at hn
    have ih2 := ih hn.2
    by_cases h : r = a
    · subst h
      simp [filterEvents, ih2, hn.1]
    · have h2 : ¬ a = r := fun e => h e.symm
      simp [filterEvents, ih2, h, h2]

theorem count_removes (a : RawAddress) (rs : List RawAddress) (hn : rs.Nodup) :
    (rs.map BtmCall.WhiteListRemove).count (BtmCall.WhiteListRemove a)
      = if a ∈ rs then 1 else 0 := by
  induction rs with
  | nil => rfl
  | cons r rs ih =>
    rw [List.nodup_cons] at hn
    have ih2 := ih hn.2
    by_cases h : r = a
    · subst h
      simp [ih2, hn.1]
    · have h2 : ¬ a = r := fun e => h e.symm
      simp [List.count_cons, ih2, h, h2]

theorem alternating_succ (n : Nat) :
    alternating (n + 1) = alternating n ++ [decide (n % 2 = 0)] := by
  simp [alternating, List.range_succ]

/-- The controller calls of one interest call on a list with distinct addresses
have one of the three forms. -/
theorem interest_step_shape (l : List tGATT_BG_CONN_DEV) (c : InterestCall) (o : Outcome Bool)
    (hn : (addresses l).Nodup) (ho : performInterest l c = some o) :
    StepShape (addresses l) (addresses o.bgconn_dev) o.calls := by
  have hnone : ∀ m : List tGATT_BG_CONN_DEV, addresses m = addresses l →
      StepShape (addresses l) (addresses m) [] := by
    intro m hm
    right; right
    exact ⟨[], rfl, List.nodup_nil, by simp, by simp [hm]⟩
  have hone : ∀ (pre post : List tGATT_BG_CONN_DEV) (d : tGATT_BG_CONN_DEV),
      l = pre ++ d :: post →
      StepShape (addresses l) (addresses (pre ++ post))
        [BtmCall.WhiteListRemove d.remote_bda] := by
    intro pre post d hl
    subst hl
    have hs := sync_after_erase (addresses pre) (addresses post) d.remote_bda
      (by simpa [addresses] using hn)
    right; right
    refine ⟨[d.remote_bda], rfl, by simp, by simp [addresses], ?_⟩
    intro a
    have hmem : a ∈ ((addresses pre ++ d.remote_bda :: addresses post).toFinset).erase
        d.remote_bda ↔ a ∈ (addresses pre ++ addresses post).toFinset := by rw [hs.2]
    simp only [Finset.mem_erase, List.mem_toFinset] at hmem
    simp only [addresses, List.map_append, List.map_cons, List.mem_singleton] at hmem ⊢
    tauto
  cases c with
  | AddInterest app b ans =>
    simp only [performInterest, Option.some.injEq] at ho
    subst ho
    rcases absent_or_split b l with habs | ⟨pre, d, post, rfl, hpre, hd⟩
    · have hb : b ∉ addresses l := by
        simp only [addresses, List.mem_map, not_exists, not_and]
        exact fun d hd => habs d hd
      rw [add_of_absent _ l ⟨app⟩ b habs]
      cases ans
      · left
        exact ⟨b, hb, by simp, by simp⟩
      · right; left
        exact ⟨b, hb, by simp, by simp [addresses]⟩
    · rw [add_at_split _ pre post d ⟨app⟩ b hpre hd]
      exact hnone _ (by simp [addresses, hd])
  | RemoveInterest app b =>
    simp only [performInterest, Option.some.injEq] at ho
    subst ho
    rcases absent_or_split b l with habs | ⟨pre, d, post, rfl, hpre, hd⟩
    · rw [remove_of_absent l ⟨app⟩ b habs]
      exact hnone _ rfl
    · rw [remove_at_split pre post d ⟨app⟩ b hpre hd]
      by_cases hm : app ∈ d.gatt_if
      · by_cases he : d.gatt_if.erase app = ∅
        · rw [if_neg (not_not.mpr hm), if_neg (not_not.mpr he)]
          have := hone pre post d rfl
          rwa [hd] at this
        · rw [if_neg (not_not.mpr hm), if_pos he]
          exact hnone _ (by simp [addresses, hd])
      · rw [if_pos hm]
        exact hnone _ rfl
  | DeregisterApp app =>
    rw [performInterest_deregister, Option.some.injEq] at ho
    subst ho
    have hs := sync_after_deregister l app hn
    rw [spec_calls_eq, applyCalls_removes] at hs
    right; right
    refine ⟨addresses (l.filter (fun d => decide (d.gatt_if.erase app = ∅))),
      spec_calls_eq l app, ?_, ?_, ?_⟩
    · exact List.Nodup.sublist ((List.filter_sublist l).map _) hn
    · intro a ha
      exact ((List.filter_sublist l).map _).subset ha
    · intro a
      have hmem : a ∈ (addresses (spec_DeregisterApp_records l app)).toFinset ↔
          a ∈ (addresses l).toFinset \
            (addresses (l.filter (fun d => decide (d.gatt_if.erase app = ∅)))).toFinset := by
        rw [hs.2]
      simpa only [Finset.mem_sdiff, List.mem_toFinset] using hmem

/-- What one step of a given form adds to the controller calls that concern an
address. -/
theorem step_events (before after : List RawAddress) (calls : List BtmCall)
    (h : StepShape before after calls) (a : RawAddress) :
    filterEvents a calls
      = (if a ∉ before ∧ a ∈ after then [true]
         else if a ∈ before ∧ a ∉ after then [false] else []) ∧
    (a ∈ before → ∀ ok, BtmCall.WhiteListAdd a ok ∉ calls) ∧
    calls.count (BtmCall.WhiteListRemove a) = (if a ∈ before ∧ a ∉ after then 1 else 0) := by
  rcases h with ⟨b, hb, rfl, rfl⟩ | ⟨b, hb, rfl, rfl⟩ | ⟨rs, rfl, hrs, hsub, hiff⟩
  · refine ⟨by simp [filterEvents], ?_, by simp⟩
    intro ha ok
    have : a ≠ b := fun e => hb (e ▸ ha)
    simp [this]
  · refine ⟨?_, ?_, ?_⟩
    · by_cases hab : b = a
      · subst hab
        simp [filterEvents, hb]
      · have hab2 : ¬ a = b := fun e => hab e.symm
        by_cases ha : a ∈ before <;> simp [filterEvents, hab, hab2, ha]
    · intro ha ok
      have : a ≠ b := fun e => hb (e ▸ ha)
      simp [this]
    · by_cases ha : a ∈ before <;> simp [ha]
  · have hmem : a ∈ rs ↔ (a ∈ before ∧ a ∉ after) := by
      constructor
      · intro ha
        exact ⟨hsub a ha, fun haft => ((hiff a).mp haft).2 ha⟩
      · rintro ⟨hbef, hnaft⟩
        by_contra hnot
        exact hnaft ((hiff a).mpr ⟨hbef, hnot⟩)
    have hnot : ¬ (a ∉ before ∧ a ∈ after) := fun ⟨h1, h2⟩ => h1 ((hiff a).mp h2).1
    refine ⟨?_, ?_, ?_⟩
    · rw [filterEvents_removes a rs hrs, if_neg hnot]
      by_cases ha : a ∈ rs
      · rw [if_pos ha, if_pos (hmem.mp ha)]
      · rw [if_neg ha, if_neg (fun h => ha (hmem.mpr h))]
    · intro _ ok
      simp
    · rw [count_removes a rs hrs]
      by_cases ha : a ∈ rs
      · rw [if_pos ha, if_pos (hmem.mp ha)]
      · rw [if_neg ha, if_neg (fun h => ha (hmem.mpr h))]

theorem runInterest_snoc (reqs : List InterestCall) (c : InterestCall) :
    runInterest (reqs ++ [c]) = (runInterest reqs).bind (fun t => stepInterest t c) := by
  simp [runInterest, List.foldl_append]

theorem performInterest_isSome (l : List tGATT_BG_CONN_DEV) (c : InterestCall) :
    ∃ o, performInterest l c = some o :=
  perform_isSome l (Operation.interest c)

theorem mem_addresses (l : List tGATT_BG_CONN_DEV) (a : RawAddress) :
    a ∈ addresses l ↔ ∃ d ∈ l, d.remote_bda = a := by
  simp [addresses]

theorem record_iff_outstanding (t : Trace) (h : RunInvariant t) (a : RawAddress) :
    (∃ d ∈ t.bgconn_dev, d.remote_bda = a) ↔ outstanding a t.history ≠ ∅ := by
  obtain ⟨-, hne, hint, -⟩ := h
  constructor
  · rintro ⟨d, hd, hda⟩
    obtain ⟨x, hx⟩ := Finset.nonempty_iff_ne_empty.mpr (hne d hd)
    exact Finset.ne_empty_of_mem ((hint a x).mp ⟨d, hd, hda, hx⟩)
  · intro hout
    obtain ⟨x, hx⟩ := Finset.nonempty_iff_ne_empty.mpr hout
    obtain ⟨d, hd, hda, -⟩ := (hint a x).mpr hx
    exact ⟨d, hd, hda⟩

theorem invariant_step (t : Trace) (c : InterestCall) (o : Outcome Bool)
    (h : RunInvariant t) (ho : performInterest t.bgconn_dev c = some o) :
    RunInvariant ⟨o.bgconn_dev, t.calls ++ o.calls, t.history ++ [(c, o.ret)]⟩ := by
  obtain ⟨hn, hne, hint, halt⟩ := h
  refine ⟨nodup_perform t.bgconn_dev (Operation.interest c) o hn ho,
    nonempty_perform t.bgconn_dev (Operation.interest c) o hne ho, ?_, ?_⟩
  · intro a x
    simp only [outstanding_snoc]
    cases c with
    | AddInterest app b ans =>
      simp only [performInterest, Option.some.injEq] at ho
      subst ho
      rw [hasInterest_add, hint a x]
      simp only [noteCall]
      by_cases hc : b = a ∧ (gatt_add_bg_dev_list (fun _ => ans) t.bgconn_dev ⟨app⟩ b).ret = true
      · rw [if_pos hc, Finset.mem_insert]
        tauto
      · rw [if_neg hc]
        tauto
    | RemoveInterest app b =>
      simp only [performInterest, Option.some.injEq] at ho
      subst ho
      rw [hasInterest_remove _ _ _ _ _ hn, hint a x]
      simp only [noteCall]
      by_cases hc : b = a
      · rw [if_pos hc, Finset.mem_erase]
        tauto
      · rw [if_neg hc]
        tauto
    | DeregisterApp app =>
      rw [performInterest_deregister, Option.some.injEq] at ho
      subst ho
      rw [hasInterest_spec_records, hint a x]
      simp only [noteCall, Finset.mem_erase]
      tauto
  · intro a
    obtain ⟨n, hev, hodd⟩ := halt a
    have hshape := interest_step_shape t.bgconn_dev c o hn ho
    have hstep := (step_events _ _ _ hshape a).1
    simp only [filterEvents_append, hev, hstep]
    by_cases h1 : a ∉ addresses t.bgconn_dev ∧ a ∈ addresses o.bgconn_dev
    · rw [if_pos h1]
      have heven : n % 2 = 0 := by
        have : ¬ n % 2 = 1 := fun e => h1.1 (hodd.mp e)
        omega
      refine ⟨n + 1, ?_, ?_⟩
      · rw [alternating_succ]
        simp [heven]
      · constructor
        · exact fun _ => h1.2
        · intro _
          omega
    · rw [if_neg h1]
      by_cases h2 : a ∈ addresses t.bgconn_dev ∧ a ∉ addresses o.bgconn_dev
      · rw [if_pos h2]
        have hodd1 : n % 2 = 1 := hodd.mpr h2.1
        refine ⟨n + 1, ?_, ?_⟩
        · rw [alternating_succ]
          have : ¬ n % 2 = 0 := by omega
          simp [this]
        · constructor
          · intro e
            omega
          · intro e
            exact absurd e h2.2
      · rw [if_neg h2]
        refine ⟨n, by simp, ?_⟩
        rw [hodd]
        tauto

/-- Every run of interest calls from the empty list ends, records the calls it was
given, and satisfies the invariant. -/
theorem run_invariant (reqs : List InterestCall) :
    ∃ t, runInterest reqs = some t ∧ t.history.map Prod.fst = reqs ∧ RunInvariant t := by
  induction reqs using List.reverseRecOn with
  | nil =>
    refine ⟨⟨[], [], []⟩, rfl, rfl, ?_⟩
    refine ⟨by simp [addresses], by simp, ?_, ?_⟩
    · intro a x
      simp [HasInterest, outstanding]
    · intro a
      exact ⟨0, by simp [filterEvents, alternating], by simp [addresses]⟩
  | append_singleton reqs c ih =>
    obtain ⟨t, ht, hhist, hinv⟩ := ih
    obtain ⟨o, ho⟩ := performInterest_isSome t.bgconn_dev c
    refine ⟨⟨o.bgconn_dev, t.calls ++ o.calls, t.history ++ [(c, o.ret)]⟩, ?_, ?_,
      invariant_step t c o hinv ho⟩
    · simp [runInterest_snoc, ht, stepInterest, ho]
    · simp [hhist]

/-- C12: every sequence of AddInterest, RemoveInterest and DeregisterApp calls from
the empty list ends, whatever `BTM_WhiteListAdd` answers along the way; in the
list it leaves, an address has a record exactly when some application has made a
successful AddInterest for it with no later RemoveInterest for it or
DeregisterApp, and the interest set of that record is the set of those
applications. -/
theorem count_invariant (reqs : List InterestCall) :
    ∃ t, runInterest reqs = some t ∧ t.history.map Prod.fst = reqs ∧
      ∀ a : RawAddress,
        ((∃ d ∈ t.bgconn_dev, d.remote_bda = a) ↔ outstanding a t.history ≠ ∅) ∧
        (∀ d ∈ t.bgconn_dev, d.remote_bda = a → d.gatt_if = outstanding a t.history) := by
  obtain ⟨t, ht, hhist, hinv⟩ := run_invariant reqs
  refine ⟨t, ht, hhist, fun a => ⟨record_iff_outstanding t hinv a, ?_⟩⟩
  obtain ⟨hn, -, hint, -⟩ := hinv
  intro d hd hda
  ext x
  constructor
  · intro hx
    exact (hint a x).mp ⟨d, hd, hda, hx⟩
  · intro hx
    obtain ⟨e, he, hea, hxe⟩ := (hint a x).mpr hx
    have hde : e = d := List.inj_on_of_nodup_map hn he hd (hea.trans hda.symm)
    rw [← hde]
    exact hxe

theorem count_invariant_witness :
    (runInterest
        [InterestCall.AddInterest 1 10 true, InterestCall.AddInterest 2 10 false,
         InterestCall.AddInterest 3 20 false, InterestCall.RemoveInterest 1 10,
         InterestCall.AddInterest 4 30 true, InterestCall.DeregisterApp 4]).map
      (fun t => (t.bgconn_dev, t.history.map Prod.snd))
      = some ([⟨{2}, 10⟩], [true, true, false, true, true, true]) ∧
    ∃ t, runInterest
        [InterestCall.AddInterest 1 10 true, InterestCall.AddInterest 2 10 false,
         InterestCall.AddInterest 3 20 false, InterestCall.RemoveInterest 1 10,
         InterestCall.AddInterest 4 30 true, InterestCall.DeregisterApp 4] = some t ∧
      t.history.map Prod.fst
        = [InterestCall.AddInterest 1 10 true, InterestCall.AddInterest 2 10 false,
           InterestCall.AddInterest 3 20 false, InterestCall.RemoveInterest 1 10,
           InterestCall.AddInterest 4 30 true, InterestCall.DeregisterApp 4] ∧
      ∀ a : RawAddress,
        ((∃ d ∈ t.bgconn_dev, d.remote_bda = a) ↔ outstanding a t.history ≠ ∅) ∧
        (∀ d ∈ t.bgconn_dev, d.remote_bda = a → d.gatt_if = outstanding a t.history) :=
  ⟨by decide,
   count_invariant
     [InterestCall.AddInterest 1 10 true, InterestCall.AddInterest 2 10 false,
      InterestCall.AddInterest 3 20 false, InterestCall.RemoveInterest 1 10,
      InterestCall.AddInterest 4 30 true, InterestCall.DeregisterApp 4]⟩

/-- C13: in the controller calls of every sequence of AddInterest, RemoveInterest
and DeregisterApp calls from the empty list, the accepted `BTM_WhiteListAdd(a)` and
the `BTM_WhiteListRemove(a)` calls alternate, starting with an add, the last one
being an add exactly when `a` has a record; and whatever interest call comes next,
it makes no `BTM_WhiteListAdd(a)` call when `a` has a record, no
`BTM_WhiteListRemove(a)` call when `a` has none, and one `BTM_WhiteListRemove(a)`
call when it takes the applications interested in `a` from some to none, and none
otherwise. -/
theorem filter_pairing (reqs : List InterestCall) (a : RawAddress) :
    ∃ t, runInterest reqs = some t ∧
      (∃ n, filterEvents a t.calls = alternating n ∧
        (n % 2 = 1 ↔ ∃ d ∈ t.bgconn_dev, d.remote_bda = a)) ∧
      (∀ call : InterestCall, ∃ o, performInterest t.bgconn_dev call = some o ∧
        ((∃ d ∈ t.bgconn_dev, d.remote_bda = a) →
          ∀ ok, BtmCall.WhiteListAdd a ok ∉ o.calls) ∧
        ((∀ d ∈ t.bgconn_dev, d.remote_bda ≠ a) → BtmCall.WhiteListRemove a ∉ o.calls) ∧
        o.calls.count (BtmCall.WhiteListRemove a)
          = (if outstanding a t.history ≠ ∅ ∧
                outstanding a (t.history ++ [(call, o.ret)]) = ∅ then 1 else 0)) := by
  obtain ⟨t, ht, -, hinv⟩ := run_invariant reqs
  refine ⟨t, ht, ?_, ?_⟩
  · obtain ⟨n, hev, hodd⟩ := hinv.2.2.2 a
    exact ⟨n, hev, by rw [hodd, mem_addresses]⟩
  · intro call
    obtain ⟨o, ho⟩ := performInterest_isSome t.bgconn_dev call
    have hinv2 := invariant_step t call o hinv ho
    have hshape := interest_step_shape t.bgconn_dev call o hinv.1 ho
    obtain ⟨-, hadd, hcount⟩ := step_events _ _ _ hshape a
    have hbefore := record_iff_outstanding t hinv a
    have hafter := record_iff_outstanding _ hinv2 a
    simp only [← mem_addresses] at hbefore hafter
    refine ⟨o, ho, ?_, ?_, ?_⟩
    · intro hrec ok
      exact hadd ((mem_addresses _ a).mpr hrec) ok
    · intro habs hmem
      have hpos : 0 < o.calls.count (BtmCall.WhiteListRemove a) := List.count_pos_iff.mpr hmem
      rw [hcount] at hpos
      by_cases hc : a ∈ addresses t.bgconn_dev ∧ a ∉ addresses o.bgconn_dev
      · obtain ⟨d, hd, hda⟩ := (mem_addresses _ a).mp hc.1
        exact habs d hd hda
      · rw [if_neg hc] at hpos
        exact absurd hpos (lt_irrefl 0)
    · rw [hcount]
      have hiff : (a ∈ addresses t.bgconn_dev ∧ a ∉ addresses o.bgconn_dev) ↔
          (outstanding a t.history ≠ ∅ ∧
            outstanding a (t.history ++ [(call, o.ret)]) = ∅) := by
        rw [hbefore, hafter]
        tauto
      by_cases hc : a ∈ addresses t.bgconn_dev ∧ a ∉ addresses o.bgconn_dev
      · rw [if_pos hc, if_pos (hiff.mp hc)]
      · rw [if_neg hc, if_neg (fun h => hc (hiff.mpr h))]

theorem filter_pairing_witness :
    (runInterest
        [InterestCall.AddInterest 1 10 true, InterestCall.AddInterest 2 10 false,
         InterestCall.RemoveInterest 1 10, InterestCall.DeregisterApp 2,
         InterestCall.AddInterest 3 10 false, InterestCall.AddInterest 3 10 true]).map
      (fun t => (filterEvents 10 t.calls, t.calls))
      = some (alternating 3,
          [BtmCall.WhiteListAdd 10 true, BtmCall.WhiteListRemove 10,
           BtmCall.WhiteListAdd 10 false, BtmCall.WhiteListAdd 10 true]) ∧
    ∃ t, runInterest
        [InterestCall.AddInterest 1 10 true, InterestCall.AddInterest 2 10 false,
         InterestCall.RemoveInterest 1 10, InterestCall.DeregisterApp 2,
         InterestCall.AddInterest 3 10 false, InterestCall.AddInterest 3 10 true] = some t ∧
      (∃ n, filterEvents 10 t.calls = alternating n ∧
        (n % 2 = 1 ↔ ∃ d ∈ t.bgconn_dev, d.remote_bda = 10)) ∧
      (∀ call : InterestCall, ∃ o, performInterest t.bgconn_dev call = some o ∧
        ((∃ d ∈ t.bgconn_dev, d.remote_bda = 10) →
          ∀ ok, BtmCall.WhiteListAdd 10 ok ∉ o.calls) ∧
        ((∀ d ∈ t.bgconn_dev, d.remote_bda ≠ 10) → BtmCall.WhiteListRemove 10 ∉ o.calls) ∧
        o.calls.count (BtmCall.WhiteListRemove 10)
          = (if outstanding 10 t.history ≠ ∅ ∧
                outstanding 10 (t.history ++ [(call, o.ret)]) = ∅ then 1 else 0)) :=
  ⟨by decide,
   filter_pairing
     [InterestCall.AddInterest 1 10 true, InterestCall.AddInterest 2 10 false,
      InterestCall.RemoveInterest 1 10, InterestCall.DeregisterApp 2,
      InterestCall.AddInterest 3 10 false, InterestCall.AddInterest 3 10 true] 10⟩

/-! ## AddInterest twice -/

theorem recordsFor_at_split (pre post : List tGATT_BG_CONN_DEV) (d : tGATT_BG_CONN_DEV)
    (a : RawAddress) (hpre : ∀ e ∈ pre, e.remote_bda ≠ a) (hd : d.remote_bda = a)
    (hpost : ∀ e ∈ post, e.remote_bda ≠ a) :
    recordsFor (pre ++ d :: post) a = [d] := by
  have h1 : pre.filter (fun d => decide (d.remote_bda = a)) = [] := by
    rw [List.filter_eq_nil_iff]
    intro e he
    simpa using hpre e he
  have h2 : post.filter (fun d => decide (d.remote_bda = a)) = [] := by
    rw [List.filter_eq_nil_iff]
    intro e he
    simpa using hpost e he
  simp [recordsFor, List.filter_append, List.filter_cons, h1, h2, hd]

/-- The second of two `gatt_add_bg_dev_list` calls for the same application and
address, on any list: it returns true, makes no controller call, leaves the list
the first call left, and the application is interested in the address. -/
theorem add_twice (wl1 wl2 : RawAddress → Bool) (l : List tGATT_BG_CONN_DEV)
    (app : tGATT_IF) (a : RawAddress)
    (hret : (gatt_add_bg_dev_list wl1 l ⟨app⟩ a).ret = true) :
    gatt_add_bg_dev_list wl2 (gatt_add_bg_dev_list wl1 l ⟨app⟩ a).bgconn_dev ⟨app⟩ a
      = ⟨true, (gatt_add_bg_dev_list wl1 l ⟨app⟩ a).bgconn_dev, []⟩ ∧
    IsInterested (gatt_add_bg_dev_list wl1 l ⟨app⟩ a).bgconn_dev a app = true ∧
    ∃ pre d post, (gatt_add_bg_dev_list wl1 l ⟨app⟩ a).bgconn_dev = pre ++ d :: post ∧
      (∀ e ∈ pre, e.remote_bda ≠ a) ∧ d.remote_bda = a ∧ app ∈ d.gatt_if ∧
      ((addresses l).Nodup → ∀ e ∈ post, e.remote_bda ≠ a) := by
  rcases absent_or_split a l with habs | ⟨pre, d, post, rfl, hpre, hd⟩
  · have e := add_of_absent wl1 l ⟨app⟩ a habs
    cases hw : wl1 a
    · simp [e, hw] at hret
    · simp only [hw, if_true] at e
      rw [e]
      refine ⟨?_, ?_, l, ⟨{app}, a⟩, [], rfl, habs, rfl, by simp, fun _ => by simp⟩
      · rw [add_at_split wl2 l [] ⟨{app}, a⟩ ⟨app⟩ a habs rfl]
        simp
      · rw [IsInterested_at_split l [] ⟨{app}, a⟩ a app habs rfl]
        simp
  · rw [add_at_split wl1 pre post d ⟨app⟩ a hpre hd]
    refine ⟨?_, ?_, pre, ⟨insert app d.gatt_if, a⟩, post, rfl, hpre, rfl, by simp, ?_⟩
    · rw [add_at_split wl2 pre post ⟨insert app d.gatt_if, a⟩ ⟨app⟩ a hpre rfl]
      simp
    · rw [IsInterested_at_split pre post ⟨insert app d.gatt_if, a⟩ a app hpre rfl]
      simp
    · intro hn
      have := absent_after_of_nodup pre post d hn
      rwa [hd] at this

/-- C14: in the list left by any sequence of operations from the empty list, when
`gatt_add_bg_dev_list` returns true, a second call for the same application and
address, whatever `BTM_WhiteListAdd` would answer, also returns true, makes no
controller call, leaves the list exactly as the first call left it, and then the
application is interested in the address and the list has a single record for
the address, which holds the application. -/
theorem idempotent_add (ops : List Operation) (wl1 wl2 : RawAddress → Bool)
    (app : tGATT_IF) (a : RawAddress) :
    ∃ l, applyOperations ops [] = some l ∧
      ((gatt_add_bg_dev_list wl1 l ⟨app⟩ a).ret = true →
        (gatt_add_bg_dev_list wl2 (gatt_add_bg_dev_list wl1 l ⟨app⟩ a).bgconn_dev ⟨app⟩ a).ret
          = true ∧
        (gatt_add_bg_dev_list wl2
            (gatt_add_bg_dev_list wl1 l ⟨app⟩ a).bgconn_dev ⟨app⟩ a).bgconn_dev
          = (gatt_add_bg_dev_list wl1 l ⟨app⟩ a).bgconn_dev ∧
        (gatt_add_bg_dev_list wl2
            (gatt_add_bg_dev_list wl1 l ⟨app⟩ a).bgconn_dev ⟨app⟩ a).calls = [] ∧
        IsInterested
          (gatt_add_bg_dev_list wl2
            (gatt_add_bg_dev_list wl1 l ⟨app⟩ a).bgconn_dev ⟨app⟩ a).bgconn_dev
          a app = true ∧
        ∃ d, recordsFor
          (gatt_add_bg_dev_list wl2
            (gatt_add_bg_dev_list wl1 l ⟨app⟩ a).bgconn_dev ⟨app⟩ a).bgconn_dev
          a = [d] ∧ app ∈ d.gatt_if) := by
  obtain ⟨l, hl⟩ := applyOperations_isSome ops
  have hn : (addresses l).Nodup :=
    reachable_induction (fun m => (addresses m).Nodup) (by simp [addresses])
      (fun m op o hm ho => nodup_perform m op o hm ho) ops l hl
  refine ⟨l, hl, fun hret => ?_⟩
  obtain ⟨h2, hI, pre, d, post, hsplit, hpre, hd, happ, hpost⟩ :=
    add_twice wl1 wl2 l app a hret
  rw [h2]
  refine ⟨rfl, rfl, rfl, hI, d, ?_, happ⟩
  show recordsFor (gatt_add_bg_dev_list wl1 l ⟨app⟩ a).bgconn_dev a = [d]
  rw [hsplit]
  exact recordsFor_at_split pre post d a hpre hd (hpost hn)

theorem idempotent_add_witness :
    applyOperations
      [Operation.interest (InterestCall.AddInterest 1 10 true),
       Operation.interest (InterestCall.AddInterest 2 20 true)] []
      = some [⟨{1}, 10⟩, ⟨{2}, 20⟩] ∧
    (gatt_add_bg_dev_list (fun _ => true) [⟨{1}, 10⟩, ⟨{2}, 20⟩] ⟨3⟩ 20).ret = true ∧
    recordsFor
      (gatt_add_bg_dev_list (fun _ => false)
        (gatt_add_bg_dev_list (fun _ => true) [⟨{1}, 10⟩, ⟨{2}, 20⟩] ⟨3⟩ 20).bgconn_dev
        ⟨3⟩ 20).bgconn_dev 20 = [⟨{3, 2}, 20⟩] ∧
    ∃ l, applyOperations
        [Operation.interest (InterestCall.AddInterest 1 10 true),
         Operation.interest (InterestCall.AddInterest 2 20 true)] [] = some l ∧
      ((gatt_add_bg_dev_list (fun _ => true) l ⟨3⟩ 20).ret = true →
        (gatt_add_bg_dev_list (fun _ => false)
            (gatt_add_bg_dev_list (fun _ => true) l ⟨3⟩ 20).bgconn_dev ⟨3⟩ 20).ret = true ∧
        (gatt_add_bg_dev_list (fun _ => false)
            (gatt_add_bg_dev_list (fun _ => true) l ⟨3⟩ 20).bgconn_dev ⟨3⟩ 20).bgconn_dev
          = (gatt_add_bg_dev_list (fun _ => true) l ⟨3⟩ 20).bgconn_dev ∧
        (gatt_add_bg_dev_list (fun _ => false)
            (gatt_add_bg_dev_list (fun _ => true) l ⟨3⟩ 20).bgconn_dev ⟨3⟩ 20).calls = [] ∧
        IsInterested
          (gatt_add_bg_dev_list (fun _ => false)
            (gatt_add_bg_dev_list (fun _ => true) l ⟨3⟩ 20).bgconn_dev ⟨3⟩ 20).bgconn_dev
          20 3 = true ∧
        ∃ d, recordsFor
          (gatt_add_bg_dev_list (fun _ => false)
            (gatt_add_bg_dev_list (fun _ => true) l ⟨3⟩ 20).bgconn_dev ⟨3⟩ 20).bgconn_dev
          20 = [d] ∧ 3 ∈ d.gatt_if) :=
  ⟨by decide, by decide, by decide,
   idempotent_add
     [Operation.interest (InterestCall.AddInterest 1 10 true),
      Operation.interest (InterestCall.AddInterest 2 20 true)]
     (fun _ => true) (fun _ => false) 3 20⟩

end GattWhiteList
